import Mathlib

/-!
Shallow embedding of the djarchive client core
(`djarchive_client/__init__.py`): manifest generation and parsing,
upload (create-manifest and verify-against-manifest modes), download
with digest-based skip verification, chunked object fetch, and catalog
enumeration.

Modelling conventions:
* Byte strings (file contents, paths, object keys) are `List Char`
  (`Str` below), one `Char` per byte; the host is assumed POSIX, so
  `os.path.sep = '/'` and `os.path`/`posixpath` joins coincide.
* The sha256 hex digest from `hashlib` is an external pure function of
  the file bytes; it is a parameter `h : Str → Str` of every operation
  that digests files (`_manifest` in the source).
* The object store (minio) is modelled at the interface the spec gives
  it: an association list of key/content pairs; `stat_object` is a
  lookup, `list_objects(recursive=True, prefix=p)` filters keys by
  string prefix, and ranged `get_object` reads are byte slices.
* The local filesystem is an association list path/content; directory
  creation (`os.makedirs`) only affects directories and is not tracked
  beyond the initial `target_directory` existence check, for which the
  set of existing directories is an explicit argument.
* Python string operations (`strip`, `lstrip`, `rstrip`, `split`,
  `replace`, `os.path.commonprefix`, `os.path.join`) are re-implemented
  on `List Char` with their documented semantics; `int()` is modelled
  for python-stripped optionally-signed decimal strings.
-/

namespace DJArchive

abbrev Str := List Char

/-- Longest common prefix of two strings: `os.path.commonprefix` on a pair. -/
def commonPre : Str → Str → Str
  | [], _ => []
  | _, [] => []
  | a :: as, b :: bs => if a = b then a :: commonPre as bs else []

/-- Python `s.lstrip(c)` for a single strip character. -/
def pyLstrip (c : Char) (s : Str) : Str := s.dropWhile (fun x => x = c)

/-- Python `s.rstrip(c)` for a single strip character. -/
def pyRstrip (c : Char) (s : Str) : Str := (s.reverse.dropWhile (fun x => x = c)).reverse

/-- The whitespace characters removed by Python `str.strip()`. -/
def isPySpace (c : Char) : Bool :=
  c = ' ' || c = '\t' || c = '\n' || c = '\x0d' || c = '\x0b' || c = '\x0c'

/-- Python `s.strip()`. -/
def pyStrip (s : Str) : Str :=
  ((s.dropWhile isPySpace).reverse.dropWhile isPySpace).reverse

/-- Python `s.split(c)` for a one-character separator. -/
def splitCh (c : Char) : Str → List Str
  | [] => [[]]
  | x :: xs =>
    match splitCh c xs with
    | [] => [[x]]
    | y :: ys => if x = c then [] :: y :: ys else (x :: y) :: ys

/-- Does `p` occur at the start of `s`? -/
def startsWith : Str → Str → Bool
  | [], _ => true
  | _ :: _, [] => false
  | p :: ps, s :: ss => p = s && startsWith ps ss

/-- One fuel-indexed step list of Python `s.replace(pat, '')`:
non-overlapping left-to-right removal of every occurrence of `pat`.
The fuel is an upper bound on the length of `s`. -/
def removeAllAux (pat : Str) : Nat → Str → Str
  | 0, s => s
  | _ + 1, [] => []
  | fuel + 1, x :: xs =>
    if pat ≠ [] ∧ startsWith pat (x :: xs) then
      removeAllAux pat fuel ((x :: xs).drop pat.length)
    else
      x :: removeAllAux pat fuel xs

/-- Python `s.replace(pat, '')`. -/
def removeAll (pat : Str) (s : Str) : Str := removeAllAux pat s.length s

/-- One step of `os.path.join` on a POSIX host: an absolute component
resets the path, otherwise a separator is inserted unless one is
already present.  `posixpath.join` (used for remote keys) has the same
definition. -/
def joinStep (acc : Str) (b : Str) : Str :=
  if b.head? = some '/' then b
  else if acc = [] ∨ acc.getLast? = some '/' then acc ++ b
  else acc ++ '/' :: b

/-- `os.path.join(root, *parts)` / `posixpath.join(root, *parts)`. -/
def pathJoin (root : Str) (parts : List Str) : Str := parts.foldl joinStep root

/-- Two-argument path join. -/
def pathJoin2 (a b : Str) : Str := joinStep a b

/-- Decimal digit characters. -/
def digitChar (d : Nat) : Char :=
  match d with
  | 0 => '0' | 1 => '1' | 2 => '2' | 3 => '3' | 4 => '4'
  | 5 => '5' | 6 => '6' | 7 => '7' | 8 => '8' | _ => '9'

def isDigitCh (c : Char) : Bool := 48 ≤ c.toNat && c.toNat ≤ 57

def digitVal (c : Char) : Nat := c.toNat - 48

/-- Little-endian decimal digits of `m`, with fuel `f ≥ m`. -/
def natReprAux : Nat → Nat → Str
  | _, 0 => []
  | 0, _ + 1 => []
  | f + 1, m + 1 => digitChar ((m + 1) % 10) :: natReprAux f ((m + 1) / 10)

/-- Decimal representation of a natural number, as produced by Python
`'{}'.format(n)`. -/
def natRepr (n : Nat) : Str :=
  if n = 0 then ['0'] else (natReprAux n n).reverse

/-- Value of an all-digit, nonempty string. -/
def digitsVal? (s : Str) : Option Nat :=
  if s ≠ [] ∧ s.all isDigitCh then some (s.foldl (fun a c => a * 10 + digitVal c) 0)
  else none

/-- Python `int(s)` (base 10) for stripped, optionally signed decimal
strings; `none` models the `ValueError` on anything else. -/
def pyInt (s : Str) : Option Int :=
  match pyStrip s with
  | [] => none
  | c :: rest =>
    if c = '+' then (digitsVal? rest).map (fun n => (n : Int))
    else if c = '-' then (digitsVal? rest).map (fun n => -(n : Int))
    else (digitsVal? (c :: rest)).map (fun n => (n : Int))

/-- First-match association-list lookup keyed by `Str`. -/
def look {α : Type} : List (Str × α) → Str → Option α
  | [], _ => none
  | (k, v) :: r, q => if k = q then some v else look r q

/-- `MANIFEST_FNAME = 'djarchive-manifest.csv'`. -/
def maniName : Str := "djarchive-manifest.csv".data

/-- `_manifest(filepath)`: size in bytes and sha256 hex digest of the
file's content, the digest given by the external hash `h`. -/
def digest (h : Str → Str) (content : Str) : Int × Str :=
  ((content.length : Int), h content)

/-- One parsed manifest entry: size and sha fields keyed by subpath. -/
structure Entry where
  size : Int
  sha : Str
  deriving DecidableEq

/-- One line written by `write_manifest`:
`'"{}","{}","{}"\n'.format(fp_sz, fp_sha, subp)`. -/
def maniLine (h : Str → Str) (subp content : Str) : Str :=
  '"' :: natRepr content.length ++ '"' :: ',' ::
  '"' :: h content ++ '"' :: ',' ::
  '"' :: subp ++ ['"', '\n']

/-- The bytes `write_manifest` (and `_upload_creating_manifest`) write:
one `maniLine` per walked regular file, in walk order, skipping the
manifest file itself (`fp == mani`). -/
def manifestContent (h : Str → Str) (files : List (Str × Str)) : Str :=
  (files.filter (fun f => ¬ f.1 = maniName)).foldr
    (fun f acc => maniLine h f.1 f.2 ++ acc) []

/-- `write_manifest(source_directory, overwrite)`: raises
`FileExistsError` when a manifest is already present and
`overwrite=False`; otherwise writes `manifestContent`.  The walked tree
is given as subpath/content pairs. -/
def write_manifest (h : Str → Str) (files : List (Str × Str)) (overwrite : Bool) :
    Except Unit Str :=
  if (look files maniName).isSome ∧ ¬ overwrite then .error ()
  else .ok (manifestContent h files)

inductive ManiErr where
  /-- `FileNotFoundError`: no manifest file in the directory. -/
  | notFound
  /-- `ValueError`: a line does not unpack into three fields, or its
  size field is not an `int()`. -/
  | badLine
  /-- `AssertionError` from `assert subp not in ret`: duplicate subpath. -/
  | corrupt
  deriving DecidableEq

/-- The lines Python file iteration yields for a file's bytes: split on
newline; the empty tail after a final newline is not yielded. -/
def pyLines (s : Str) : List Str :=
  if s = [] then []
  else if (splitCh '\n' s).getLast? = some [] then (splitCh '\n' s).dropLast
  else splitCh '\n' s

/-- The per-line loop of `read_manifest`: strip the line, split on
commas, remove every double quote from each field, require exactly
three fields, reject duplicate subpaths, parse the size as `int`. -/
def parseGo : List Str → List (Str × Entry) → Except ManiErr (List (Str × Entry))
  | [], acc => .ok acc
  | line :: rest, acc =>
    match (splitCh ',' (pyStrip line)).map (fun f => f.filter (fun c => ¬ c = '"')) with
    | [sz, sha, subp] =>
      if (look acc subp).isSome then .error .corrupt
      else
        match pyInt sz with
        | none => .error .badLine
        | some n => parseGo rest (acc ++ [(subp, ⟨n, sha⟩)])
    | _ => .error .badLine

/-- `read_manifest` applied to the manifest file's bytes (`none` when
the file is absent). -/
def readManifest : Option Str → Except ManiErr (List (Str × Entry))
  | none => .error .notFound
  | some c => parseGo (pyLines c) []

/-- `read_manifest(source_directory)`: opens
`os.path.join(source_directory, MANIFEST_FNAME)` in the filesystem
`fs`. -/
def readManifestDir (fs : List (Str × Str)) (dir : Str) :
    Except ManiErr (List (Str × Entry)) :=
  readManifest (look fs (pathJoin2 dir maniName))

/-- `ufs.join(name, revision, subp)`: the remote key of a file. -/
def key3 (name rev subp : Str) : Str := pathJoin2 (pathJoin2 name rev) subp

inductive UpErrKind where
  /-- `AssertionError`: manifest already exists in create mode. -/
  | assertExists
  /-- `FileNotFoundError`: walked subpath absent from the manifest. -/
  | notFound (subp : Str)
  /-- `ValueError`: manifest mismatch, naming local and reference size
  and sha. -/
  | mismatch (subp : Str) (sz refSz : Int) (sha refSha : Str)
  /-- An error raised by `read_manifest`. -/
  | maniErr (e : ManiErr)
  deriving DecidableEq

/-- A failed upload: the error raised together with the objects already
put to the store before it was raised. -/
structure UpFail where
  kind : UpErrKind
  puts : List (Str × Str)
  deriving DecidableEq

/-- The walk loop of `_upload_using_manifest`: for each walked file
(skipping the manifest itself), require a manifest entry
(`FileNotFoundError` otherwise), digest and compare against it
(`ValueError` on mismatch), then `fput_object` the file.  `puts`
accumulates the objects put so far, in order. -/
def upUseGo (h : Str → Str) (name rev : Str) (mani : List (Str × Entry)) :
    List (Str × Str) → List (Str × Str) → Except UpFail (List (Str × Str))
  | [], puts => .ok puts
  | (s, c) :: rest, puts =>
    if s = maniName then upUseGo h name rev mani rest puts
    else
      match look mani s with
      | none => .error ⟨.notFound s, puts⟩
      | some e =>
        if (digest h c).1 = e.size ∧ (digest h c).2 = e.sha then
          upUseGo h name rev mani rest (puts ++ [(key3 name rev s, c)])
        else
          .error ⟨.mismatch s (digest h c).1 e.size (digest h c).2 e.sha, puts⟩

/-- `_upload_using_manifest`: load the manifest present in the source
tree, verify and put every walked file, then put the manifest last. -/
def uploadUsingManifest (h : Str → Str) (name rev : Str)
    (files : List (Str × Str)) (maniContent : Str) :
    Except UpFail (List (Str × Str)) :=
  match readManifest (some maniContent) with
  | .error e => .error ⟨.maniErr e, []⟩
  | .ok mani =>
    match upUseGo h name rev mani files [] with
    | .error f => .error f
    | .ok puts => .ok (puts ++ [(key3 name rev maniName, maniContent)])

/-- The file objects an upload walk puts, in walk order: one object per
walked regular file other than the manifest itself. -/
def filePuts (name rev : Str) (files : List (Str × Str)) : List (Str × Str) :=
  (files.filter (fun f => ¬ f.1 = maniName)).map (fun f => (key3 name rev f.1, f.2))

/-- `_upload_creating_manifest`: `assert not os.path.exists(mani_fp)`,
then walk the tree, putting each file (skipping the manifest path) and
appending its line to the manifest under construction; finally put the
manifest last.  In the source the puts are interleaved with the
manifest-line writes; the resulting put sequence and manifest bytes are
as below. -/
def uploadCreatingManifest (h : Str → Str) (name rev : Str)
    (files : List (Str × Str)) : Except UpFail (List (Str × Str)) :=
  if (look files maniName).isSome then .error ⟨.assertExists, []⟩
  else
    .ok (filePuts name rev files ++
         [(key3 name rev maniName, manifestContent h files)])

/-- The chunk lengths of `fget_object` for an object of `size` bytes:
`size // 2^20` full 1 MiB chunks followed by the leftover when the size
is not a multiple. -/
def chunkSizes (size : Nat) : List Nat :=
  let chunksz := 1024 ^ 2
  let nchunks := size / chunksz
  let leftover := size % chunksz
  if leftover ≠ 0 then List.replicate nchunks chunksz ++ [leftover]
  else List.replicate nchunks chunksz

/-- Pair each chunk length with its advancing offset. -/
def withOffsets : Nat → List Nat → List (Nat × Nat)
  | _, [] => []
  | off, c :: cs => (off, c) :: withOffsets (off + c) cs

/-- The byte-range reads `fget_object` issues for an object of known
`size`: `(offset, length)` pairs. -/
def fgetReads (size : Nat) : List (Nat × Nat) := withOffsets 0 (chunkSizes size)

/-- `get_object(bucket, key, offset, length)`: a byte-range read. -/
def getRange (content : Str) (off len : Nat) : Str := (content.drop off).take len

/-- The bytes `fget_object` writes sequentially to the destination
file: the concatenation of its ranged reads. -/
def fgetData (content : Str) : Str :=
  ((fgetReads content.length).map (fun r => getRange content r.1 r.2)).flatten

inductive DLKind where
  /-- `FileNotFoundError`: missing target directory, or missing remote
  manifest (revision not found/incomplete). -/
  | notFound
  /-- Manifest parse failure (`ValueError`). -/
  | badLine
  /-- Manifest duplicate subpath (`AssertionError`). -/
  | corrupt
  /-- `KeyError`: an enumerated object's subpath has no manifest entry. -/
  | keyError
  /-- `AssertionError` from the commonprefix escape guard. -/
  | assertEscape
  deriving DecidableEq

/-- A failed download: the error raised and the objects fetched before
it was raised. -/
structure DLFail where
  kind : DLKind
  fetched : List Str
  deriving DecidableEq

/-- A completed download: final filesystem, integrity issue count, and
the objects fetched, in order. -/
structure DLDone where
  fs : List (Str × Str)
  nerr : Nat
  fetched : List Str
  deriving DecidableEq

/-- Write (create or overwrite) one file. -/
def fsWrite (fs : List (Str × Str)) (k v : Str) : List (Str × Str) :=
  (k, v) :: fs.filter (fun e => ¬ e.1 = k)

/-- `ssubp`: the object key with the commonprefix with `pfx` removed
(by `str.replace`, hence every occurrence) and leading slashes
stripped. -/
def subpOf (pfx spath : Str) : Str :=
  pyLstrip '/' (removeAll (commonPre pfx spath) spath)

/-- `lpath = os.path.join(target_directory, *ssubp.split(ufs.sep))`. -/
def lpathOf (target ssubp : Str) : Str := pathJoin target (splitCh '/' ssubp)

/-- The main download loop over the enumerated objects.  For each
non-manifest object: compute `ssubp` and `lpath`, assert the
commonprefix guard, then either skip (existing file whose size and
digest match the manifest entry), or fetch and re-verify, counting
integrity issues.  A subpath missing from the manifest raises
`KeyError` in either branch. -/
def dlLoop (h : Str → Str) (mani : List (Str × Entry)) (target pfx : Str) :
    List (Str × Str) → List (Str × Str) → Nat → List Str → Except DLFail DLDone
  | [], fs, nerr, fetched => .ok ⟨fs, nerr, fetched⟩
  | (spath, content) :: rest, fs, nerr, fetched =>
    let ssubp := subpOf pfx spath
    if ssubp = maniName then dlLoop h mani target pfx rest fs nerr fetched
    else
      let lpath := lpathOf target ssubp
      if ¬ commonPre target lpath = target then .error ⟨.assertEscape, fetched⟩
      else
        match look fs lpath with
        | some d =>
          match look mani ssubp with
          | none => .error ⟨.keyError, fetched⟩
          | some e =>
            if (digest h d).1 = e.size ∧ (digest h d).2 = e.sha then
              dlLoop h mani target pfx rest fs nerr fetched
            else
              let fs' := fsWrite fs lpath (fgetData content)
              let nerr' := if (digest h (fgetData content)).1 = e.size ∧
                              (digest h (fgetData content)).2 = e.sha
                           then nerr + 1 else nerr + 2
              dlLoop h mani target pfx rest fs' nerr' (fetched ++ [spath])
        | none =>
          let fs' := fsWrite fs lpath (fgetData content)
          match look mani ssubp with
          | none => .error ⟨.keyError, fetched ++ [spath]⟩
          | some e =>
            let nerr' := if (digest h (fgetData content)).1 = e.size ∧
                            (digest h (fgetData content)).2 = e.sha
                         then nerr else nerr + 1
            dlLoop h mani target pfx rest fs' nerr' (fetched ++ [spath])

/-- The part of `download` after the manifest stat succeeded with
content `mc`: fetch the manifest object to
`os.path.join(target, MANIFEST_FNAME)`, parse it from there, and run
the main loop over the recursive listing under the `name/revision`
prefix. -/
def downloadBody (h : Str → Str) (name rev target : Str)
    (store fs : List (Str × Str)) (mc : Str) : Except DLFail DLDone :=
  let pfx := pathJoin2 name rev
  let maniKey := pathJoin2 pfx maniName
  let maniL := pathJoin2 target maniName
  let fsA := fsWrite fs maniL (fgetData mc)
  match readManifest (look fsA maniL) with
  | .error .notFound => .error ⟨.notFound, [maniKey]⟩
  | .error .badLine => .error ⟨.badLine, [maniKey]⟩
  | .error .corrupt => .error ⟨.corrupt, [maniKey]⟩
  | .ok mani =>
    dlLoop h mani target pfx (store.filter (fun o => startsWith pfx o.1))
      fsA 0 [maniKey]

/-- `download(dataset_name, revision, target_directory, create_target)`.
`dirs` is the set of existing directories; `create_target` adds the
target (`os.makedirs`).  Fails `FileNotFoundError` on a missing target
directory or a missing remote manifest object (the store's stat), then
continues with `downloadBody`. -/
def download (h : Str → Str) (name rev target : Str) (create : Bool)
    (dirs : List Str) (store : List (Str × Str)) (fs : List (Str × Str)) :
    Except DLFail DLDone :=
  let dirs' := if create then target :: dirs else dirs
  if target ∈ dirs' then
    match look store (pathJoin2 (pathJoin2 name rev) maniName) with
    | none => .error ⟨.notFound, []⟩
    | some mc => downloadBody h name rev target store fs mc
  else .error ⟨.notFound, []⟩

/-- A listed object is skip-verified against the filesystem `fs`: its
subpath has a manifest entry, a local file exists at its local path,
and that file's size and digest match the entry. -/
def entryMatches (h : Str → Str) (mani : List (Str × Entry)) (target pfx : Str)
    (fs : List (Str × Str)) (o : Str × Str) : Prop :=
  ∃ e, look mani (subpOf pfx o.1) = some e ∧
    ∃ d, look fs (lpathOf target (subpOf pfx o.1)) = some d ∧
      (digest h d).1 = e.size ∧ (digest h d).2 = e.sha

/-- Order-preserving deduplication (minio yields each common prefix of
a non-recursive listing once). -/
def dedupAux {α : Type} [DecidableEq α] : List α → List α → List α
  | [], _ => []
  | x :: r, seen => if x ∈ seen then dedupAux r seen else x :: dedupAux r (x :: seen)

def dedup {α : Type} [DecidableEq α] (l : List α) : List α := dedupAux l []

/-- What a non-recursive `list_objects(bucket, prefix=pfx)` surfaces
for one stored key: a grouping `pfx + seg + '/'` with `is_dir` when the
key goes deeper, else the key itself as a leaf object. -/
def groupingOf? (pfx k : Str) : Option (Str × Bool) :=
  if startsWith pfx k then
    let rem := k.drop pfx.length
    if '/' ∈ rem then some (pfx ++ rem.takeWhile (fun c => ¬ c = '/') ++ ['/'], true)
    else some (k, false)
  else none

/-- A non-recursive store listing under `pfx`, groupings deduplicated. -/
def listShallow (keys : List Str) (pfx : Str) : List (Str × Bool) :=
  dedup (keys.filterMap (groupingOf? pfx))

/-- `datasets()`: the `is_dir` groupings of a prefixless listing, each
with its trailing slashes stripped. -/
def datasets (keys : List Str) : List Str :=
  (listShallow keys []).filterMap
    (fun o => if o.2 then some (pyRstrip '/' o.1) else none)

inductive CatErr where
  /-- `FileNotFoundError`: dataset with no revisions. -/
  | notFound
  deriving DecidableEq

/-- `revisions(dataset)` for a given dataset name: each grouping under
`dataset + '/'`, with trailing slashes stripped and split on `/`
(yielded by the source as a tuple); raises `FileNotFoundError` when the
generator yields nothing. -/
def revisionsGiven (keys : List Str) (d : Str) : Except CatErr (List (List Str)) :=
  if ((listShallow keys (d ++ ['/'])).filterMap
      (fun o => if o.2 then some (splitCh '/' (pyRstrip '/' o.1)) else none)) = []
  then .error .notFound
  else .ok ((listShallow keys (d ++ ['/'])).filterMap
      (fun o => if o.2 then some (splitCh '/' (pyRstrip '/' o.1)) else none))

/-- Value of a big-endian digit string read by the `digitsVal?` fold,
little-endian form. -/
def valLE : Str → Nat
  | [] => 0
  | c :: r => digitVal c + 10 * valLE r

/-- A string free of the characters the quoted-CSV manifest format
cannot carry unescaped: double quote, comma, newline. -/
def cleanStr (s : Str) : Prop := '"' ∉ s ∧ ',' ∉ s ∧ '\n' ∉ s

instance (s : Str) : Decidable (cleanStr s) := by
  unfold cleanStr
  infer_instance

/-- The body of a manifest line (without the trailing newline). -/
def maniBody (h : Str → Str) (subp content : Str) : Str :=
  '"' :: natRepr content.length ++ '"' :: ',' ::
  '"' :: h content ++ '"' :: ',' ::
  '"' :: subp ++ ['"']

/-- A concrete executable digest stand-in used to instantiate witnesses
(the real sha256 is opaque to the model). -/
def hW (s : Str) : Str := 'd' :: natRepr s.length

/-- Stack-based lexical resolution of the `.`, `..` and empty segments
of an absolute POSIX path, as the operating system resolves them
(absent symlinks) when a file at that path is created. -/
def resolveStack : List Str → List Str → List Str
  | acc, [] => acc
  | acc, seg :: rest =>
    if seg = [] ∨ seg = ['.'] then resolveStack acc rest
    else if seg = ['.', '.'] then resolveStack acc.dropLast rest
    else resolveStack (acc ++ [seg]) rest

/-- The real location an absolute path string denotes, with `.`, `..`
and empty segments resolved lexically. -/
def resolvePath (p : Str) : Str :=
  '/' :: (String.intercalate "/" ((resolveStack [] (splitCh '/' p)).map
    (fun s => String.mk s))).data

/-- Is the resolved path `p` inside the directory with resolved path
`t` (or `t` itself)? -/
def insideDir (t p : Str) : Bool :=
  p = t || startsWith (t ++ ['/']) p

/-! ## Helper lemmas -/

theorem commonPre_append (a t : Str) : commonPre a (a ++ t) = a := by
  induction a with
  | nil => cases t <;> rfl
  | cons x xs ih => simp [commonPre, ih]

theorem look_eq_none_iff {α : Type} (l : List (Str × α)) (q : Str) :
    look l q = none ↔ q ∉ l.map Prod.fst := by
  induction l with
  | nil => simp [look]
  | cons e r ih =>
    by_cases hk : e.1 = q
    · constructor
      · intro h
        rw [show e = (e.1, e.2) from rfl] at h
        simp [look, hk] at h
      · intro h
        rw [List.map_cons] at h
        exact absurd (List.mem_cons.mpr (Or.inl hk.symm)) h
    · rw [show e = (e.1, e.2) from rfl]
      simp only [look, if_neg hk, List.map_cons, List.mem_cons]
      rw [ih]
      constructor
      · intro h hc
        rcases hc with hc | hc
        · exact hk hc.symm
        · exact h hc
      · intro h hc
        exact h (Or.inr hc)

theorem look_append_left {α : Type} (l₁ l₂ : List (Str × α)) (q : Str) (v : α)
    (hv : look l₁ q = some v) : look (l₁ ++ l₂) q = some v := by
  induction l₁ with
  | nil => simp [look] at hv
  | cons e r ih =>
    obtain ⟨k, w⟩ := e
    by_cases hk : k = q <;> simp_all [look]

theorem look_append_right {α : Type} (l₁ l₂ : List (Str × α)) (q : Str)
    (hq : look l₁ q = none) : look (l₁ ++ l₂) q = look l₂ q := by
  induction l₁ with
  | nil => simp [look]
  | cons e r ih =>
    obtain ⟨k, w⟩ := e
    by_cases hk : k = q <;> simp_all [look]

theorem look_mem_keys {α : Type} (l : List (Str × α)) (q : Str) (v : α)
    (h : look l q = some v) : q ∈ l.map Prod.fst := by
  by_contra hq
  rw [← look_eq_none_iff] at hq
  rw [hq] at h
  exact Option.noConfusion h

theorem look_fsWrite_self (fs : List (Str × Str)) (k v : Str) :
    look (fsWrite fs k v) k = some v := by
  simp [fsWrite, look]

theorem look_fsWrite_other (fs : List (Str × Str)) (k v q : Str) (hq : ¬ k = q) :
    look (fsWrite fs k v) q = look fs q := by
  simp only [fsWrite, look, if_neg hq]
  induction fs with
  | nil => simp [look]
  | cons e r ih =>
    obtain ⟨k', v'⟩ := e
    by_cases hk : k' = k <;> by_cases hkq : k' = q <;>
      simp_all [look, List.filter]

theorem splitCh_ne_nil (c : Char) (s : Str) : splitCh c s ≠ [] := by
  cases s with
  | nil => simp [splitCh]
  | cons x xs =>
    simp only [splitCh]
    match h : splitCh c xs with
    | [] => simp
    | y :: ys => by_cases hx : x = c <;> simp [hx]

theorem splitCh_not_mem (c : Char) (s : Str) : ∀ q ∈ splitCh c s, c ∉ q := by
  induction s with
  | nil => simp [splitCh]
  | cons x xs ih =>
    intro q hq
    rcases h : splitCh c xs with _ | ⟨y, ys⟩
    · exact absurd h (splitCh_ne_nil c xs)
    · simp only [splitCh, h] at hq
      by_cases hx : x = c
      · simp only [if_pos hx] at hq
        rcases List.mem_cons.mp hq with hq1 | hq1
        · subst hq1; simp
        · exact ih q (h ▸ hq1)
      · simp only [if_neg hx] at hq
        rcases List.mem_cons.mp hq with hq1 | hq1
        · subst hq1
          intro hmem
          rcases List.mem_cons.mp hmem with hc | hc
          · exact hx hc.symm
          · exact ih y (h ▸ List.mem_cons_self y ys) hc
        · exact ih q (h ▸ List.mem_cons.mpr (Or.inr hq1))

theorem splitCh_singleton (c : Char) (s x : Str) (h : splitCh c s = [x]) : s = x := by
  induction s generalizing x with
  | nil => simpa [splitCh] using h.symm
  | cons a as ih =>
    rcases hs : splitCh c as with _ | ⟨y, ys⟩
    · exact absurd hs (splitCh_ne_nil c as)
    · simp only [splitCh, hs] at h
      by_cases ha : a = c
      · simp [ha] at h
      · simp only [if_neg ha] at h
        have h1 : a :: y = x ∧ ys = [] := by
          constructor
          · exact (List.cons_eq_cons.mp h).1
          · exact (List.cons_eq_cons.mp h).2
        obtain ⟨hx, hys⟩ := h1
        have hy : as = y := ih y (by rw [hs, hys])
        rw [← hx, hy]

theorem splitCh_cons_sep (c : Char) (a s : Str) (ha : c ∉ a) :
    splitCh c (a ++ c :: s) = a :: splitCh c s := by
  induction a with
  | nil =>
    simp only [List.nil_append, splitCh]
    match h : splitCh c s with
    | [] => exact absurd h (splitCh_ne_nil c s)
    | y :: ys => simp
  | cons x xs ih =>
    have hx : ¬ x = c := fun hc => ha (hc ▸ List.mem_cons_self x xs)
    have ha' : c ∉ xs := fun hc => ha (List.mem_cons.mpr (Or.inr hc))
    show splitCh c (x :: (xs ++ c :: s)) = (x :: xs) :: splitCh c s
    rw [splitCh, ih ha']
    simp [hx]

theorem splitCh_no_sep (c : Char) (a : Str) (ha : c ∉ a) : splitCh c a = [a] := by
  induction a with
  | nil => rfl
  | cons x xs ih =>
    have hx : ¬ x = c := fun hc => ha (hc ▸ List.mem_cons_self x xs)
    have ha' : c ∉ xs := fun hc => ha (List.mem_cons.mpr (Or.inr hc))
    simp [splitCh, ih ha', hx]

theorem pathJoin_ext (parts : List Str) :
    ∀ acc : Str, (∀ q ∈ parts, q.head? ≠ some '/') →
    ∃ t : Str, pathJoin acc parts = acc ++ t := by
  induction parts with
  | nil => exact fun acc _ => ⟨[], by simp [pathJoin]⟩
  | cons p ps ih =>
    intro acc hp
    have hph : p.head? ≠ some '/' := hp p (List.mem_cons_self p ps)
    have hps : ∀ q ∈ ps, q.head? ≠ some '/' := fun q hq => hp q (List.mem_cons.mpr (Or.inr hq))
    obtain ⟨t, ht⟩ := ih (joinStep acc p) hps
    simp only [pathJoin, List.foldl_cons] at ht ⊢
    rw [ht]
    simp only [joinStep, if_neg hph]
    by_cases hacc : acc = [] ∨ acc.getLast? = some '/'
    · exact ⟨p ++ t, by simp [if_pos hacc]⟩
    · exact ⟨'/' :: p ++ t, by simp [if_neg hacc]⟩

theorem joinStep_of_plain (acc b : Str) (hb : b.head? ≠ some '/')
    (hacc : acc ≠ []) (hlast : acc.getLast? ≠ some '/') :
    joinStep acc b = acc ++ '/' :: b := by
  simp only [joinStep, if_neg hb]
  have : ¬ (acc = [] ∨ acc.getLast? = some '/') := by
    intro h
    rcases h with h | h
    · exact hacc h
    · exact hlast h
  simp [this]

theorem digitVal_digitChar (d : Nat) (hd : d < 10) : digitVal (digitChar d) = d := by
  interval_cases d <;> rfl

theorem isDigitCh_digitChar (d : Nat) (hd : d < 10) : isDigitCh (digitChar d) = true := by
  interval_cases d <;> rfl

theorem natReprAux_spec (f : Nat) : ∀ m : Nat, m ≤ f →
    valLE (natReprAux f m) = m ∧
    (∀ c ∈ natReprAux f m, isDigitCh c = true) ∧
    (0 < m → natReprAux f m ≠ []) := by
  induction f with
  | zero =>
    intro m hm
    interval_cases m
    exact ⟨rfl, by simp [natReprAux], by simp⟩
  | succ f ih =>
    intro m hm
    cases m with
    | zero => exact ⟨rfl, by simp [natReprAux], by simp⟩
    | succ m' =>
      have hdiv : (m' + 1) / 10 ≤ f := by omega
      obtain ⟨ihv, ihd, _⟩ := ih ((m' + 1) / 10) hdiv
      refine ⟨?_, ?_, ?_⟩
      · show digitVal (digitChar ((m' + 1) % 10)) + 10 * valLE (natReprAux f ((m' + 1) / 10)) = m' + 1
        rw [digitVal_digitChar _ (Nat.mod_lt _ (by omega)), ihv]
        omega
      · intro c hc
        rcases List.mem_cons.mp hc with hc | hc
        · rw [hc]; exact isDigitCh_digitChar _ (Nat.mod_lt _ (by omega))
        · exact ihd c hc
      · intro _
        simp [natReprAux]

theorem foldl_reverse_valLE (l : Str) :
    l.reverse.foldl (fun a c => a * 10 + digitVal c) 0 = valLE l := by
  have key : ∀ (l : Str) (a : Nat),
      l.reverse.foldl (fun a c => a * 10 + digitVal c) a = a * 10 ^ l.length + valLE l := by
    intro l
    induction l with
    | nil => intro a; simp [valLE]
    | cons c r ih =>
      intro a
      rw [List.reverse_cons, List.foldl_append]
      simp only [List.foldl_cons, List.foldl_nil, ih, valLE, List.length_cons]
      ring
  simpa using key l 0

theorem digitsVal_natRepr (n : Nat) : digitsVal? (natRepr n) = some n := by
  by_cases hn : n = 0
  · subst hn; rfl
  · obtain ⟨hv, hd, hne⟩ := natReprAux_spec n n le_rfl
    simp only [natRepr, if_neg hn, digitsVal?]
    have h1 : (natReprAux n n).reverse ≠ [] := by
      simpa using hne (Nat.pos_of_ne_zero hn)
    have h2 : (natReprAux n n).reverse.all isDigitCh = true := by
      rw [List.all_eq_true]
      intro c hc
      exact hd c (List.mem_reverse.mp hc)
    rw [if_pos ⟨h1, h2⟩, foldl_reverse_valLE, hv]

theorem isDigitCh_not_space (c : Char) (hc : isDigitCh c = true) : isPySpace c = false := by
  have h1 : c ≠ ' ' := fun h => by rw [h] at hc; exact absurd hc (by decide)
  have h2 : c ≠ '\t' := fun h => by rw [h] at hc; exact absurd hc (by decide)
  have h3 : c ≠ '\n' := fun h => by rw [h] at hc; exact absurd hc (by decide)
  have h4 : c ≠ '\x0d' := fun h => by rw [h] at hc; exact absurd hc (by decide)
  have h5 : c ≠ '\x0b' := fun h => by rw [h] at hc; exact absurd hc (by decide)
  have h6 : c ≠ '\x0c' := fun h => by rw [h] at hc; exact absurd hc (by decide)
  simp [isPySpace, h1, h2, h3, h4, h5, h6]

theorem mem_of_getLast?_eq (s : Str) (c : Char) (hc : s.getLast? = some c) : c ∈ s := by
  have h1 : c ∈ s.getLast? := hc
  obtain ⟨hne, heq⟩ := List.mem_getLast?_eq_getLast h1
  rw [heq]
  exact List.getLast_mem hne

theorem dropWhile_eq_self_of_head {p : Char → Bool} (s : Str)
    (h : ∀ c, s.head? = some c → p c = false) : s.dropWhile p = s := by
  cases s with
  | nil => rfl
  | cons x xs => simp [List.dropWhile_cons, h x rfl]

/-- `str.strip()` leaves a string whose first and last characters are
not whitespace unchanged. -/
theorem pyStrip_eq_self (s : Str)
    (hh : ∀ c, s.head? = some c → isPySpace c = false)
    (hl : ∀ c, s.getLast? = some c → isPySpace c = false) : pyStrip s = s := by
  unfold pyStrip
  rw [dropWhile_eq_self_of_head s hh]
  rw [dropWhile_eq_self_of_head s.reverse (by
    intro c hc
    exact hl c (by rwa [← List.head?_reverse]))]
  exact List.reverse_reverse s

theorem maniLine_eq_body (h : Str → Str) (s c : Str) :
    maniLine h s c = maniBody h s c ++ ['\n'] := by
  simp [maniLine, maniBody]

theorem pyInt_natRepr (n : Nat) : pyInt (natRepr n) = some (n : Int) := by
  have hd : ∀ c ∈ natRepr n, isDigitCh c = true := by
    by_cases hn : n = 0
    · subst hn; intro c hc; simp [natRepr] at hc; subst hc; rfl
    · obtain ⟨_, hdig, _⟩ := natReprAux_spec n n le_rfl
      intro c hc
      simp only [natRepr, if_neg hn] at hc
      exact hdig c (List.mem_reverse.mp hc)
  have hne : natRepr n ≠ [] := by
    by_cases hn : n = 0
    · subst hn; simp [natRepr]
    · obtain ⟨_, _, hne⟩ := natReprAux_spec n n le_rfl
      simp only [natRepr, if_neg hn]
      simpa using hne (Nat.pos_of_ne_zero hn)
  have hstrip : pyStrip (natRepr n) = natRepr n := by
    apply pyStrip_eq_self
    · intro c hc
      exact isDigitCh_not_space c (hd c (by
        cases hr : natRepr n with
        | nil => exact absurd hr hne
        | cons x xs => rw [hr] at hc; simp at hc; subst hc; simp [hr]))
    · intro c hc
      exact isDigitCh_not_space c (hd c (mem_of_getLast?_eq _ c hc))
  rcases hr : natRepr n with _ | ⟨x, xs⟩
  · exact absurd hr hne
  · have hx : isDigitCh x = true := hd x (by simp [hr])
    have hxp : ¬ x = '+' := by
      intro h; subst h; simp [isDigitCh] at hx
    have hxm : ¬ x = '-' := by
      intro h; subst h; simp [isDigitCh] at hx
    simp only [pyInt, hr ▸ hstrip, if_neg hxp, if_neg hxm]
    rw [← hr, digitsVal_natRepr]
    rfl

theorem isDigitCh_ne (c d : Char) (hc : isDigitCh c = true) (hd : isDigitCh d = false) :
    c ≠ d := by
  intro h
  rw [h, hd] at hc
  exact Bool.noConfusion hc

theorem natRepr_digits (n : Nat) : ∀ c ∈ natRepr n, isDigitCh c = true := by
  by_cases hn : n = 0
  · subst hn
    intro c hc
    simp [natRepr] at hc
    subst hc
    rfl
  · obtain ⟨_, hdig, _⟩ := natReprAux_spec n n le_rfl
    intro c hc
    simp only [natRepr, if_neg hn] at hc
    exact hdig c (List.mem_reverse.mp hc)

theorem splitCh_flatten_bodies (c : Char) (bodies : List Str)
    (hb : ∀ b ∈ bodies, c ∉ b) :
    splitCh c ((bodies.map (fun b => b ++ [c])).flatten) = bodies ++ [[]] := by
  induction bodies with
  | nil => rfl
  | cons b bs ih =>
    have hb1 : c ∉ b := hb b (List.mem_cons_self b bs)
    have hbs : ∀ x ∈ bs, c ∉ x := fun x hx => hb x (List.mem_cons.mpr (Or.inr hx))
    have hflat : ((b :: bs).map (fun x => x ++ [c])).flatten
        = b ++ c :: (bs.map (fun x => x ++ [c])).flatten := by
      simp [List.flatten]
    rw [hflat, splitCh_cons_sep c b _ hb1, ih hbs]
    rfl

theorem pyLines_bodies (bodies : List Str) (hb : ∀ b ∈ bodies, '\n' ∉ b) :
    pyLines ((bodies.map (fun b => b ++ ['\n'])).flatten) = bodies := by
  cases bodies with
  | nil => rfl
  | cons b bs =>
    have hsplit := splitCh_flatten_bodies '\n' (b :: bs) hb
    have hne : ((b :: bs).map (fun x => x ++ ['\n'])).flatten ≠ [] := by
      simp [List.flatten]
    have hassoc : (b :: bs ++ [[]] : List Str) = (b :: bs) ++ [[]] := by simp
    unfold pyLines
    rw [if_neg hne, hsplit, hassoc, List.getLast?_concat, if_pos rfl, List.dropLast_concat]

theorem manifestContent_eq_flatten (h : Str → Str) (files : List (Str × Str)) :
    manifestContent h files =
      ((files.filter (fun f => ¬ f.1 = maniName)).map
        (fun f => maniBody h f.1 f.2 ++ ['\n'])).flatten := by
  unfold manifestContent
  induction files.filter (fun f => ¬ f.1 = maniName) with
  | nil => rfl
  | cons f fs ih =>
    show maniLine h f.1 f.2 ++ List.foldr (fun f acc => maniLine h f.1 f.2 ++ acc) [] fs = _
    rw [ih, maniLine_eq_body]
    simp

theorem filter_quotes (x : Str) (hx : '"' ∉ x) :
    ('"' :: x ++ ['"']).filter (fun ch => ¬ ch = '"') = x := by
  have h1 : ∀ c ∈ x, (fun ch => decide (¬ ch = '"')) c = true := by
    intro c hc
    simp only [decide_eq_true_eq]
    exact fun hq => hx (hq ▸ hc)
  simp only [List.cons_append, List.filter_cons, List.filter_append]
  rw [List.filter_eq_self.mpr h1]
  simp

theorem maniBody_fields (h : Str → Str) (s c : Str)
    (hs : cleanStr s) (hh : cleanStr (h c)) :
    (splitCh ',' (pyStrip (maniBody h s c))).map
      (fun f => f.filter (fun ch => ¬ ch = '"'))
      = [natRepr c.length, h c, s] := by
  have hstrip : pyStrip (maniBody h s c) = maniBody h s c := by
    apply pyStrip_eq_self
    · intro x hx
      simp only [maniBody, List.cons_append, List.head?_cons] at hx
      cases hx
      rfl
    · intro x hx
      have : (maniBody h s c).getLast? = some '"' := by
        show ('"' :: (natRepr c.length ++ '"' :: ',' :: '"' :: h c ++ '"' :: ',' :: '"' :: s) ++ ['"']).getLast? = some '"'
        rw [List.getLast?_concat]
      rw [this] at hx
      cases hx
      rfl
  have hA : ',' ∉ '"' :: natRepr c.length ++ ['"'] := by
    intro hmem
    rcases List.mem_cons.mp hmem with hq | hq
    · exact absurd hq.symm (by decide)
    · rcases List.mem_append.mp hq with hq | hq
      · exact absurd rfl (isDigitCh_ne _ ',' (natRepr_digits c.length ',' hq) (by decide))
      · simp at hq
  have hB : ',' ∉ '"' :: h c ++ ['"'] := by
    intro hmem
    rcases List.mem_cons.mp hmem with hq | hq
    · exact absurd hq.symm (by decide)
    · rcases List.mem_append.mp hq with hq | hq
      · exact hh.2.1 hq
      · simp at hq
  have hC : ',' ∉ '"' :: s ++ ['"'] := by
    intro hmem
    rcases List.mem_cons.mp hmem with hq | hq
    · exact absurd hq.symm (by decide)
    · rcases List.mem_append.mp hq with hq | hq
      · exact hs.2.1 hq
      · simp at hq
  have hshape : maniBody h s c =
      ('"' :: natRepr c.length ++ ['"']) ++ ',' ::
      (('"' :: h c ++ ['"']) ++ ',' :: ('"' :: s ++ ['"'])) := by
    simp [maniBody]
  rw [hstrip, hshape, splitCh_cons_sep ',' _ _ hA, splitCh_cons_sep ',' _ _ hB,
    splitCh_no_sep ',' _ hC]
  simp only [List.map_cons, List.map_nil]
  rw [filter_quotes _ (fun hq => absurd rfl
        (isDigitCh_ne _ '"' (natRepr_digits c.length '"' hq) (by decide))),
    filter_quotes _ hh.1, filter_quotes _ hs.1]

theorem parseGo_canonical_step (h : Str → Str) (s c : Str) (rest : List Str)
    (acc : List (Str × Entry)) (hs : cleanStr s) (hh : cleanStr (h c))
    (hfresh : look acc s = none) :
    parseGo (maniBody h s c :: rest) acc
      = parseGo rest (acc ++ [(s, ⟨(c.length : Int), h c⟩)]) := by
  unfold parseGo
  rw [maniBody_fields h s c hs hh]
  simp only [hfresh, Option.isSome_none, Bool.false_eq_true, if_false, pyInt_natRepr]
  conv_lhs => unfold parseGo

theorem parseGo_ok (h : Str → Str) (files : List (Str × Str)) : ∀ acc,
    (∀ f ∈ files, cleanStr f.1 ∧ cleanStr (h f.2)) →
    (∀ f ∈ files, look acc f.1 = none) →
    (files.map Prod.fst).Nodup →
    parseGo (files.map (fun f => maniBody h f.1 f.2)) acc
      = .ok (acc ++ files.map (fun f => (f.1, ⟨(f.2.length : Int), h f.2⟩))) := by
  induction files with
  | nil => intro acc _ _ _; simp [parseGo]
  | cons f fs ih =>
    intro acc hclean hfresh hnodup
    obtain ⟨hc1, hc2⟩ := hclean f (List.mem_cons_self f fs)
    rw [List.map_cons, parseGo_canonical_step h f.1 f.2 _ acc hc1 hc2
      (hfresh f (List.mem_cons_self f fs))]
    have hnodup' : (fs.map Prod.fst).Nodup := by
      rw [List.map_cons] at hnodup
      exact hnodup.of_cons
    have hnotmem : f.1 ∉ fs.map Prod.fst := by
      rw [List.map_cons] at hnodup
      exact (List.nodup_cons.mp hnodup).1
    have hfresh' : ∀ g ∈ fs, look (acc ++ [(f.1, ⟨(f.2.length : Int), h f.2⟩)]) g.1 = none := by
      intro g hg
      rw [look_append_right _ _ _ (hfresh g (List.mem_cons.mpr (Or.inr hg)))]
      have hne : ¬ f.1 = g.1 := by
        intro he
        exact hnotmem (he ▸ List.mem_map_of_mem Prod.fst hg)
      simp [look, hne]
    rw [ih _ (fun g hg => hclean g (List.mem_cons.mpr (Or.inr hg))) hfresh' hnodup']
    simp

theorem parseGo_corrupt (h : Str → Str) (files : List (Str × Str)) : ∀ acc,
    (∀ f ∈ files, cleanStr f.1 ∧ cleanStr (h f.2)) →
    (acc.map Prod.fst).Nodup →
    ¬ (acc.map Prod.fst ++ files.map Prod.fst).Nodup →
    parseGo (files.map (fun f => maniBody h f.1 f.2)) acc = .error .corrupt := by
  induction files with
  | nil =>
    intro acc _ hacc hdup
    exact absurd (by simpa using hacc) hdup
  | cons f fs ih =>
    intro acc hclean hacc hdup
    obtain ⟨hc1, hc2⟩ := hclean f (List.mem_cons_self f fs)
    by_cases hfresh : look acc f.1 = none
    · rw [List.map_cons, parseGo_canonical_step h f.1 f.2 _ acc hc1 hc2 hfresh]
      apply ih
      · exact fun g hg => hclean g (List.mem_cons.mpr (Or.inr hg))
      · rw [List.map_append]
        simp only [List.map_cons, List.map_nil]
        rw [List.nodup_append]
        refine ⟨hacc, List.nodup_singleton _, ?_⟩
        intro a ha hb
        simp only [List.mem_singleton] at hb
        subst hb
        exact (look_eq_none_iff acc f.1).mp hfresh ha
      · intro hcon
        apply hdup
        rw [List.map_cons]
        have : acc.map Prod.fst ++ f.1 :: fs.map Prod.fst
            = (acc ++ [(f.1, (⟨(f.2.length : Int), h f.2⟩ : Entry))]).map Prod.fst
              ++ fs.map Prod.fst := by
          simp
        rw [this]
        exact hcon
    · have hsome : (look acc f.1).isSome = true := by
        rcases hl : look acc f.1 with _ | v
        · exact absurd hl hfresh
        · rfl
      rw [List.map_cons]
      unfold parseGo
      rw [maniBody_fields h f.1 f.2 hc1 hc2]
      simp [hsome]

theorem parseGo_nodup (lines : List Str) : ∀ acc m,
    (acc.map Prod.fst).Nodup → parseGo lines acc = .ok m →
    (m.map Prod.fst).Nodup := by
  induction lines with
  | nil =>
    intro acc m hacc hok
    cases hok
    exact hacc
  | cons line rest ih =>
    intro acc m hacc hok
    unfold parseGo at hok
    split at hok
    next sz sha subp heq =>
      split at hok
      next => exact absurd hok (by simp)
      next hdup =>
        split at hok
        next => exact absurd hok (by simp)
        next n hint =>
          refine ih _ m ?_ hok
          rw [List.map_append]
          simp only [List.map_cons, List.map_nil]
          rw [List.nodup_append]
          refine ⟨hacc, List.nodup_singleton _, ?_⟩
          intro x hx hb
          simp only [List.mem_singleton] at hb
          rw [hb] at hx
          have hnone : look acc subp = none := by
            rcases hl : look acc subp with _ | v
            · rfl
            · exact absurd (by rw [hl]; rfl) hdup
          exact (look_eq_none_iff acc subp).mp hnone hx
    next => exact absurd hok (by simp)

theorem mem_maniBody (h : Str → Str) (s c : Str) (x : Char) (hx : x ∈ maniBody h s c) :
    x = '"' ∨ x = ',' ∨ x ∈ natRepr c.length ∨ x ∈ h c ∨ x ∈ s := by
  simp only [maniBody, List.cons_append, List.mem_cons, List.mem_append,
    List.mem_singleton] at hx
  tauto

theorem maniBody_no_newline (h : Str → Str) (s c : Str)
    (hs : cleanStr s) (hh : cleanStr (h c)) : '\n' ∉ maniBody h s c := by
  intro hmem
  rcases mem_maniBody h s c '\n' hmem with hq | hq | hq | hq | hq
  · exact absurd hq (by decide)
  · exact absurd hq (by decide)
  · exact absurd rfl (isDigitCh_ne _ '\n' (natRepr_digits c.length '\n' hq) (by decide))
  · exact hh.2.2 hq
  · exact hs.2.2 hq

theorem readManifest_content (h : Str → Str) (files : List (Str × Str))
    (hclean : ∀ f ∈ files, ¬ f.1 = maniName → cleanStr f.1 ∧ cleanStr (h f.2)) :
    readManifest (some (manifestContent h files))
      = parseGo ((files.filter (fun f => ¬ f.1 = maniName)).map
          (fun f => maniBody h f.1 f.2)) [] := by
  have hmap : (files.filter (fun f => ¬ f.1 = maniName)).map
      (fun f => maniBody h f.1 f.2 ++ ['\n'])
      = ((files.filter (fun f => ¬ f.1 = maniName)).map
          (fun f => maniBody h f.1 f.2)).map (fun b => b ++ ['\n']) := by
    rw [List.map_map]
    rfl
  have hb : ∀ b ∈ (files.filter (fun f => ¬ f.1 = maniName)).map
      (fun f => maniBody h f.1 f.2), '\n' ∉ b := by
    intro b hbm
    rcases List.mem_map.mp hbm with ⟨f, hf, hfb⟩
    have hfm : ¬ f.1 = maniName := by
      have := List.mem_filter.mp hf
      simpa using this.2
    obtain ⟨h1, h2⟩ := hclean f (List.mem_filter.mp hf).1 hfm
    rw [← hfb]
    exact maniBody_no_newline h f.1 f.2 h1 h2
  show parseGo (pyLines (manifestContent h files)) [] = _
  rw [manifestContent_eq_flatten, hmap, pyLines_bodies _ hb]

theorem chunkSizes_sum (n : Nat) : (chunkSizes n).sum = n := by
  unfold chunkSizes
  by_cases h : n % 1024 ^ 2 ≠ 0
  · rw [if_pos h, List.sum_append, List.sum_replicate, List.sum_singleton, smul_eq_mul]
    have := Nat.div_add_mod n (1024 ^ 2)
    omega
  · rw [if_neg h, List.sum_replicate, smul_eq_mul]
    push_neg at h
    omega

theorem chunkSizes_pos (n : Nat) : ∀ c ∈ chunkSizes n, 0 < c := by
  intro c hc
  unfold chunkSizes at hc
  by_cases h : n % 1024 ^ 2 ≠ 0
  · rw [if_pos h] at hc
    rcases List.mem_append.mp hc with hm | hm
    · rw [List.eq_of_mem_replicate hm]; positivity
    · rw [List.mem_singleton.mp hm]; omega
  · rw [if_neg h] at hc
    rw [List.eq_of_mem_replicate hc]; positivity

theorem withOffsets_flatten {α : Type} (cs : List Nat) : ∀ (off : Nat) (l : List α),
    ((withOffsets off cs).map (fun r => (l.drop r.1).take r.2)).flatten
      = (l.drop off).take cs.sum := by
  induction cs with
  | nil => intro off l; simp [withOffsets]
  | cons c cs ih =>
    intro off l
    show (l.drop off).take c ++ _ = _
    rw [ih (off + c) l, List.sum_cons, List.take_add]
    congr 1
    rw [List.drop_drop]

theorem fgetData_eq (s : Str) : fgetData s = s := by
  unfold fgetData fgetReads getRange
  rw [withOffsets_flatten, chunkSizes_sum]
  simp

theorem withOffsets_length (cs : List Nat) : ∀ off, (withOffsets off cs).length = cs.length := by
  induction cs with
  | nil => intro off; rfl
  | cons c cs ih => intro off; simp [withOffsets, ih]

theorem withOffsets_snd_mem (cs : List Nat) : ∀ off r, r ∈ withOffsets off cs → r.2 ∈ cs := by
  induction cs with
  | nil => intro off r hr; exact absurd hr (by simp [withOffsets])
  | cons c cs ih =>
    intro off r hr
    rcases List.mem_cons.mp hr with hr | hr
    · subst hr; simp
    · exact List.mem_cons.mpr (Or.inr (ih (off + c) r hr))

theorem withOffsets_concat (cs : List Nat) (x : Nat) : ∀ off,
    withOffsets off (cs ++ [x]) = withOffsets off cs ++ [(off + cs.sum, x)] := by
  induction cs with
  | nil => intro off; simp [withOffsets]
  | cons c cs ih =>
    intro off
    show (off, c) :: withOffsets (off + c) (cs ++ [x]) = _
    rw [ih (off + c)]
    simp only [withOffsets, List.cons_append, List.sum_cons]
    rw [Nat.add_assoc]

theorem withOffsets_last_end (cs : List Nat) : ∀ off, cs ≠ [] →
    (withOffsets off cs).getLast?.map (fun r : Nat × Nat => r.1 + r.2)
      = some (off + cs.sum) := by
  induction cs with
  | nil => intro off h; exact absurd rfl h
  | cons c cs ih =>
    intro off _
    cases hcs : cs with
    | nil => simp [withOffsets, hcs]
    | cons c' cs' =>
      have hrec := ih (off + c) (by simp [hcs])
      rw [hcs] at hrec
      show ((off, c) :: withOffsets (off + c) (c' :: cs')).getLast?.map _ = _
      have hshape : withOffsets (off + c) (c' :: cs')
          = (off + c, c') :: withOffsets (off + c + c') cs' := rfl
      rw [hshape, List.getLast?_cons_cons, ← hshape, hrec]
      simp only [List.sum_cons]
      congr 1
      omega

theorem withOffsets_chain (cs : List Nat) : ∀ off, (∀ c ∈ cs, 0 < c) →
    List.Chain' (fun a b : Nat × Nat => a.1 + a.2 = b.1 ∧ a.1 < b.1)
      (withOffsets off cs) := by
  induction cs with
  | nil => intro off _; exact List.chain'_nil
  | cons c cs ih =>
    intro off hpos
    have hc : 0 < c := hpos c (List.mem_cons_self c cs)
    have ihc := ih (off + c) (fun d hd => hpos d (List.mem_cons.mpr (Or.inr hd)))
    show List.Chain' _ ((off, c) :: withOffsets (off + c) cs)
    rw [List.chain'_cons']
    refine ⟨?_, ihc⟩
    intro y hy
    cases cs with
    | nil => simp [withOffsets] at hy
    | cons c' cs' =>
      obtain rfl : (off + c, c') = y := by simpa [withOffsets] using hy
      exact ⟨rfl, by omega⟩

theorem joinStep_right_inj (a b b' : Str) (hb : ¬ b.head? = some '/')
    (hb' : ¬ b'.head? = some '/') (he : joinStep a b = joinStep a b') : b = b' := by
  unfold joinStep at he
  rw [if_neg hb, if_neg hb'] at he
  by_cases hacc : a = [] ∨ a.getLast? = some '/'
  · rw [if_pos hacc, if_pos hacc] at he
    exact List.append_cancel_left he
  · rw [if_neg hacc, if_neg hacc] at he
    have := List.append_cancel_left he
    exact List.cons.inj this |>.2

theorem key3_ne_maniKey (name rev s : Str) (hs : ¬ s = maniName)
    (hh : ¬ s.head? = some '/') :
    ¬ key3 name rev s = key3 name rev maniName := by
  intro he
  exact hs (joinStep_right_inj (pathJoin2 name rev) s maniName hh (by decide) he)

theorem maniKey_not_mem_filePuts (name rev : Str) (files : List (Str × Str))
    (hsub : ∀ f ∈ files, ¬ (f.1 : Str).head? = some '/') :
    key3 name rev maniName ∉ (filePuts name rev files).map Prod.fst := by
  intro hmem
  unfold filePuts at hmem
  rw [List.map_map] at hmem
  rcases List.mem_map.mp hmem with ⟨f, hf, hfk⟩
  have hm := List.mem_filter.mp hf
  exact key3_ne_maniKey name rev f.1 (by simpa using hm.2) (hsub f hm.1) hfk

theorem upUseGo_pre (h : Str → Str) (name rev : Str) (mani : List (Str × Entry))
    (pre : List (Str × Str)) : ∀ (rest : List (Str × Str)) (puts : List (Str × Str)),
    (∀ f ∈ pre, ¬ f.1 = maniName → ∃ e, look mani f.1 = some e ∧
      (digest h f.2).1 = e.size ∧ (digest h f.2).2 = e.sha) →
    upUseGo h name rev mani (pre ++ rest) puts
      = upUseGo h name rev mani rest (puts ++ filePuts name rev pre) := by
  induction pre with
  | nil => intro rest puts _; simp [filePuts]
  | cons f pre' ih =>
    intro rest puts hpre
    by_cases hfm : f.1 = maniName
    · have hstep : upUseGo h name rev mani ((f :: pre') ++ rest) puts
          = upUseGo h name rev mani (pre' ++ rest) puts := by
        show upUseGo h name rev mani ((f.1, f.2) :: (pre' ++ rest)) puts = _
        unfold upUseGo
        rw [if_pos hfm]
        conv_lhs => unfold upUseGo
      rw [hstep, ih rest puts (fun g hg => hpre g (List.mem_cons.mpr (Or.inr hg)))]
      have : filePuts name rev (f :: pre') = filePuts name rev pre' := by
        unfold filePuts
        rw [show (f :: pre').filter (fun f => ¬ f.1 = maniName)
            = pre'.filter (fun f => ¬ f.1 = maniName) from by
          rw [List.filter_cons]
          simp [hfm]]
      rw [this]
    · obtain ⟨e, he, hsz, hsha⟩ := hpre f (List.mem_cons_self f pre') hfm
      have hstep : upUseGo h name rev mani ((f :: pre') ++ rest) puts
          = upUseGo h name rev mani (pre' ++ rest) (puts ++ [(key3 name rev f.1, f.2)]) := by
        show upUseGo h name rev mani ((f.1, f.2) :: (pre' ++ rest)) puts = _
        unfold upUseGo
        rw [if_neg hfm, he]
        simp only [hsz, hsha, and_self, if_true]
        conv_lhs => unfold upUseGo
      rw [hstep, ih rest _ (fun g hg => hpre g (List.mem_cons.mpr (Or.inr hg)))]
      have : filePuts name rev (f :: pre')
          = (key3 name rev f.1, f.2) :: filePuts name rev pre' := by
        unfold filePuts
        rw [List.filter_cons]
        simp [hfm]
      rw [this, List.append_assoc]
      rfl

theorem download_no_mani (hh : Str → Str) (name rev target : Str) (create : Bool)
    (dirs : List Str) (store fs : List (Str × Str))
    (hdir : target ∈ (if create then target :: dirs else dirs))
    (hnone : look store (pathJoin2 (pathJoin2 name rev) maniName) = none) :
    download hh name rev target create dirs store fs = .error ⟨.notFound, []⟩ := by
  simp only [download, hnone]
  rw [if_pos hdir]

theorem download_target_missing (hh : Str → Str) (name rev target : Str)
    (dirs : List Str) (store fs : List (Str × Str)) (hdir : ¬ target ∈ dirs) :
    download hh name rev target false dirs store fs = .error ⟨.notFound, []⟩ := by
  simp only [download]
  rw [if_neg (by simpa using hdir)]

theorem upUseGo_ok_mem (h : Str → Str) (name rev : Str) (mani : List (Str × Entry)) :
    ∀ (files puts0 fp : List (Str × Str)),
    upUseGo h name rev mani files puts0 = .ok fp →
    ∀ p ∈ fp, p ∈ puts0 ∨ ∃ f, f ∈ files ∧ ¬ f.1 = maniName ∧ p.1 = key3 name rev f.1 := by
  intro files
  induction files with
  | nil =>
    intro puts0 fp hok p hp
    cases hok
    exact Or.inl hp
  | cons f rest ih =>
    intro puts0 fp hok p hp
    rw [show f = (f.1, f.2) from rfl] at hok
    unfold upUseGo at hok
    by_cases hfm : f.1 = maniName
    · rw [if_pos hfm] at hok
      rcases ih puts0 fp hok p hp with hc | ⟨g, hg, hgm, hgk⟩
      · exact Or.inl hc
      · exact Or.inr ⟨g, List.mem_cons.mpr (Or.inr hg), hgm, hgk⟩
    · rw [if_neg hfm] at hok
      split at hok
      next => exact absurd hok (by simp)
      next e hl =>
        split at hok
        next hd =>
          rcases ih _ fp hok p hp with hc | ⟨g, hg, hgm, hgk⟩
          · rcases List.mem_append.mp hc with hc1 | hc1
            · exact Or.inl hc1
            · rcases List.mem_singleton.mp hc1 with rfl
              exact Or.inr ⟨(f.1, f.2), List.mem_cons_self _ _, hfm, rfl⟩
          · exact Or.inr ⟨g, List.mem_cons.mpr (Or.inr hg), hgm, hgk⟩
        next hd => exact absurd hok (by simp)

theorem puts_last_mani (name rev : Str) (A : List (Str × Str)) (m : Str)
    (hA : key3 name rev maniName ∉ A.map Prod.fst) :
    ((A ++ [(key3 name rev maniName, m)]).getLast? = some (key3 name rev maniName, m))
    ∧ (∀ p ∈ (A ++ [(key3 name rev maniName, m)]).dropLast,
        ¬ p.1 = key3 name rev maniName)
    ∧ (∀ Q rest2 : List (Str × Str),
        A ++ [(key3 name rev maniName, m)] = Q ++ rest2 → rest2 ≠ [] →
        key3 name rev maniName ∉ Q.map Prod.fst
        ∧ ∀ (hh : Str → Str) (target : Str) (dirs : List Str) (fs : List (Str × Str)),
            target ∈ dirs →
            download hh name rev target false dirs Q fs = .error ⟨.notFound, []⟩) := by
  refine ⟨List.getLast?_concat _, ?_, ?_⟩
  · intro p hp
    rw [List.dropLast_concat] at hp
    intro hk
    exact hA (hk ▸ List.mem_map_of_mem Prod.fst hp)
  · intro Q rest2 hEq hrne
    have hQlen : Q.length ≤ A.length := by
      have h1 := congrArg List.length hEq
      simp only [List.length_append, List.length_singleton] at h1
      have h2 : 1 ≤ rest2.length := by
        cases rest2 with
        | nil => exact absurd rfl hrne
        | cons x xs => simp
      omega
    have hQtake : Q = A.take Q.length := by
      have h1 : (A ++ [(key3 name rev maniName, m)]).take Q.length = Q := by
        rw [hEq]
        exact List.take_left Q rest2
      rw [List.take_append_of_le_length hQlen] at h1
      exact h1.symm
    have hQnm : key3 name rev maniName ∉ Q.map Prod.fst := by
      intro hmem
      rcases List.mem_map.mp hmem with ⟨p, hp, hpk⟩
      have hpA : p ∈ A := List.take_subset _ _ (hQtake ▸ hp)
      exact hA (hpk ▸ List.mem_map_of_mem Prod.fst hpA)
    refine ⟨hQnm, ?_⟩
    intro hh target dirs fs htarget
    exact download_no_mani hh name rev target false dirs Q fs (by simpa using htarget)
      ((look_eq_none_iff Q _).mpr hQnm)

theorem splitCh_head_not_sep (ssubp : Str) :
    ∀ q ∈ splitCh '/' ssubp, ¬ (q : Str).head? = some '/' := by
  intro q hq hh
  cases q with
  | nil => simp at hh
  | cons x xs =>
    simp only [List.head?_cons, Option.some.injEq] at hh
    exact splitCh_not_mem '/' ssubp _ hq (hh ▸ List.mem_cons_self x xs)

theorem pyLstrip_head_ne (c : Char) (s : Str) : ¬ (pyLstrip c s).head? = some c := by
  induction s with
  | nil => simp [pyLstrip]
  | cons x xs ih =>
    by_cases hx : x = c
    · simpa [pyLstrip, List.dropWhile_cons, hx] using ih
    · simp [pyLstrip, List.dropWhile_cons, hx]

theorem getLast?_append_right {α : Type} (l m : List α) (hm : m ≠ []) :
    (l ++ m).getLast? = m.getLast? := by
  rw [List.getLast?_eq_head?_reverse, List.getLast?_eq_head?_reverse,
    List.reverse_append]
  cases hm' : m.reverse with
  | nil => exact absurd (by simpa using hm') hm
  | cons y ys => simp

theorem splitCh_cons_ne (sep x : Char) (xs : Str) (hx : ¬ x = sep) :
    ∃ y ys, splitCh sep (x :: xs) = (x :: y) :: ys ∧ splitCh sep xs = y :: ys := by
  rcases h : splitCh sep xs with _ | ⟨y, ys⟩
  · exact absurd h (splitCh_ne_nil sep xs)
  · exact ⟨y, ys, by simp [splitCh, h, hx], rfl⟩

/-- A non-manifest subpath without a leading slash never lands on the
local manifest path `os.path.join(target, MANIFEST_FNAME)`. -/
theorem lpath_ne_maniLpath (target ssubp : Str) (htne : target ≠ [])
    (htls : ¬ target.getLast? = some '/') (hsne : ¬ ssubp = maniName)
    (hhead : ¬ ssubp.head? = some '/') :
    ¬ lpathOf target ssubp = pathJoin2 target maniName := by
  have hmani : pathJoin2 target maniName = target ++ '/' :: maniName :=
    joinStep_of_plain target maniName (by decide) htne htls
  intro heq
  rw [hmani] at heq
  cases hs : ssubp with
  | nil =>
    rw [hs] at heq
    have : lpathOf target [] = target ++ ['/'] := by
      show pathJoin target (splitCh '/' []) = _
      show joinStep target [] = _
      rw [joinStep_of_plain target [] (by simp) htne htls]
    rw [this] at heq
    have := List.append_cancel_left heq
    simp [maniName] at this
  | cons c s' =>
    have hc : ¬ c = '/' := by
      intro hcc
      exact hhead (by rw [hs, hcc]; rfl)
    obtain ⟨y, ys, hsplit, _⟩ := splitCh_cons_ne '/' c s' hc
    have hyne : '/' ∉ c :: y := by
      have := splitCh_not_mem '/' (c :: s') (c :: y)
        (hsplit ▸ List.mem_cons_self _ _)
      exact this
    have hstep1 : joinStep target (c :: y) = target ++ '/' :: c :: y :=
      joinStep_of_plain target (c :: y) (by simpa using hc) htne htls
    rw [hs] at heq
    unfold lpathOf at heq
    rw [hsplit] at heq
    cases hys : ys with
    | nil =>
      rw [hys] at heq
      have h2 : pathJoin target [c :: y] = target ++ '/' :: c :: y := by
        show joinStep target (c :: y) = _
        exact hstep1
      rw [h2] at heq
      have h3 := List.append_cancel_left heq
      have h4 : c :: y = maniName := List.cons.inj h3 |>.2
      have h5 : splitCh '/' ssubp = [maniName] := by
        rw [hs, hsplit, hys, h4]
      exact hsne (splitCh_singleton '/' ssubp maniName h5)
    | cons q ps' =>
      rw [hys] at heq
      have hqh : ¬ (q : Str).head? = some '/' := by
        apply splitCh_head_not_sep (c :: s')
        rw [hsplit, hys]
        exact List.mem_cons.mpr (Or.inr (List.mem_cons_self _ _))
      have hacc_ne : target ++ '/' :: c :: y ≠ [] := by simp
      have hacc_last : ¬ (target ++ '/' :: c :: y).getLast? = some '/' := by
        rw [getLast?_append_right target ('/' :: c :: y) (by simp)]
        rw [show ('/' :: c :: y : Str) = ['/'] ++ c :: y from rfl]
        rw [getLast?_append_right ['/'] (c :: y) (by simp)]
        intro hlast
        exact hyne (mem_of_getLast?_eq _ '/' hlast)
      have hstep2 : joinStep (target ++ '/' :: c :: y) q
          = target ++ '/' :: c :: y ++ '/' :: q :=
        (joinStep_of_plain _ q hqh hacc_ne hacc_last).trans (by simp)
      have hps' : ∀ p ∈ ps', ¬ (p : Str).head? = some '/' := by
        intro p hp
        apply splitCh_head_not_sep (c :: s')
        rw [hsplit, hys]
        exact List.mem_cons.mpr (Or.inr (List.mem_cons.mpr (Or.inr hp)))
      obtain ⟨t, ht⟩ := pathJoin_ext ps' (target ++ '/' :: c :: y ++ '/' :: q) hps'
      have hjoin : pathJoin target ((c :: y) :: q :: ps')
          = target ++ '/' :: c :: y ++ '/' :: q ++ t := by
        show pathJoin (joinStep target (c :: y)) (q :: ps') = _
        rw [hstep1]
        show pathJoin (joinStep (target ++ '/' :: c :: y) q) ps' = _
        rw [hstep2, ht]
      rw [hjoin] at heq
      have heq' : target ++ (('/' :: c :: y) ++ (('/' :: q) ++ t))
          = target ++ ('/' :: maniName) := by
        simpa [List.append_assoc] using heq
      have h3 := List.append_cancel_left heq'
      have h4 : c :: (y ++ ('/' :: q ++ t)) = maniName := by
        have h3i := List.cons.inj (show ('/' : Char) :: (c :: (y ++ ('/' :: q ++ t)))
            = '/' :: maniName from by simpa [List.append_assoc] using h3)
        exact h3i.2
      have h5 : ('/' : Char) ∈ maniName := by
        rw [← h4]
        simp
      exact absurd h5 (by decide)

/-- The download escape guard always passes: the locally joined path
extends `target_directory` character-wise, so its `commonprefix` with
the target is the target, whatever segments (`..` included) the remote
subpath contains. -/
theorem guard_commonPre (target ssubp : Str) :
    commonPre target (lpathOf target ssubp) = target := by
  obtain ⟨t, ht⟩ := pathJoin_ext (splitCh '/' ssubp) target (splitCh_head_not_sep ssubp)
  unfold lpathOf
  rw [ht, commonPre_append]

theorem download_eq_body (hh : Str → Str) (name rev target : Str) (create : Bool)
    (dirs : List Str) (store fs : List (Str × Str)) (mc : Str)
    (hdir : target ∈ (if create then target :: dirs else dirs))
    (hmc : look store (pathJoin2 (pathJoin2 name rev) maniName) = some mc) :
    download hh name rev target create dirs store fs
      = downloadBody hh name rev target store fs mc := by
  simp only [download, hmc]
  rw [if_pos hdir]

theorem downloadBody_eq_loop (hh : Str → Str) (name rev target : Str)
    (store fs : List (Str × Str)) (mc : Str) (mani : List (Str × Entry))
    (hpm : readManifest (some (fgetData mc)) = .ok mani) :
    downloadBody hh name rev target store fs mc
      = dlLoop hh mani target (pathJoin2 name rev)
          (store.filter (fun o => startsWith (pathJoin2 name rev) o.1))
          (fsWrite fs (pathJoin2 target maniName) (fgetData mc)) 0
          [pathJoin2 (pathJoin2 name rev) maniName] := by
  simp only [downloadBody, look_fsWrite_self, hpm]

theorem downloadBody_errors (hh : Str → Str) (name rev target : Str)
    (store fs : List (Str × Str)) (mc : Str) (e : ManiErr)
    (hpm : readManifest (some (fgetData mc)) = .error e) :
    downloadBody hh name rev target store fs mc
      = .error ⟨match e with
          | .notFound => .notFound
          | .badLine => .badLine
          | .corrupt => .corrupt,
          [pathJoin2 (pathJoin2 name rev) maniName]⟩ := by
  simp only [downloadBody, look_fsWrite_self, hpm]
  cases e <;> rfl

theorem dlLoop_nerr_le (h : Str → Str) (mani : List (Str × Entry)) (target pfx : Str) :
    ∀ (objs : List (Str × Str)) (fs : List (Str × Str)) (nerr : Nat)
      (fetched : List Str) (r : DLDone),
    dlLoop h mani target pfx objs fs nerr fetched = .ok r → nerr ≤ r.nerr := by
  intro objs
  induction objs with
  | nil =>
    intro fs nerr fetched r hok
    cases hok
    exact le_rfl
  | cons o rest ih =>
    intro fs nerr fetched r hok
    rw [show o = (o.1, o.2) from rfl] at hok
    unfold dlLoop at hok
    by_cases hm : subpOf pfx o.1 = maniName
    · rw [if_pos hm] at hok
      exact ih fs nerr fetched r hok
    · rw [if_neg hm, if_neg (fun hc => hc (guard_commonPre target (subpOf pfx o.1)))]
        at hok
      split at hok
      next d hd =>
        split at hok
        next => exact absurd hok (by simp)
        next e he =>
          split at hok
          next => exact ih fs nerr fetched r hok
          next =>
            split at hok
            next => exact le_trans (by omega) (ih _ _ _ r hok)
            next => exact le_trans (by omega) (ih _ _ _ r hok)
      next hnone =>
        split at hok
        next => exact absurd hok (by simp)
        next e he =>
          split at hok
          next => exact ih _ _ _ r hok
          next => exact le_trans (by omega) (ih _ _ _ r hok)

theorem dlLoop_ok_invariant (h : Str → Str) (mani : List (Str × Entry))
    (target pfx : Str) :
    ∀ (objs fs : List (Str × Str)) (nerr : Nat) (fetched : List Str)
      (fs' : List (Str × Str)) (fetched' : List Str),
    dlLoop h mani target pfx objs fs nerr fetched = .ok ⟨fs', nerr, fetched'⟩ →
    (∀ o ∈ objs, ¬ subpOf pfx o.1 = maniName → entryMatches h mani target pfx fs' o)
    ∧ (∀ (p d : Str), look fs p = some d → look fs' p = some d) := by
  intro objs
  induction objs with
  | nil =>
    intro fs nerr fetched fs' fetched' hok
    have hfs : fs = fs' := by
      have := hok
      simp only [dlLoop, Except.ok.injEq, DLDone.mk.injEq] at this
      exact this.1
    subst hfs
    exact ⟨by simp, fun p d hd => hd⟩
  | cons o rest ih =>
    intro fs nerr fetched fs' fetched' hok
    rw [show o = (o.1, o.2) from rfl] at hok
    unfold dlLoop at hok
    by_cases hm : subpOf pfx o.1 = maniName
    · rw [if_pos hm] at hok
      obtain ⟨ihm, ihp⟩ := ih fs nerr fetched fs' fetched' hok
      refine ⟨?_, ihp⟩
      intro g hg hgm
      rcases List.mem_cons.mp hg with rfl | hg1
      · exact absurd hm (by simpa using hgm)
      · exact ihm g hg1 hgm
    · rw [if_neg hm, if_neg (fun hc => hc (guard_commonPre target (subpOf pfx o.1)))]
        at hok
      split at hok
      next d hd =>
        split at hok
        next => exact absurd hok (by simp)
        next e he =>
          split at hok
          next hmatch =>
            obtain ⟨ihm, ihp⟩ := ih fs nerr fetched fs' fetched' hok
            refine ⟨?_, ihp⟩
            intro g hg hgm
            rcases List.mem_cons.mp hg with rfl | hg1
            · exact ⟨e, he, d, ihp _ d hd, hmatch.1, hmatch.2⟩
            · exact ihm g hg1 hgm
          next hmatch =>
            split at hok
            next =>
              have := dlLoop_nerr_le h mani target pfx rest _ _ _ _ hok
              simp at this
            next =>
              have := dlLoop_nerr_le h mani target pfx rest _ _ _ _ hok
              simp at this
      next hnone =>
        split at hok
        next => exact absurd hok (by simp)
        next e he =>
          split at hok
          next hvm =>
            obtain ⟨ihm, ihp⟩ := ih _ nerr _ fs' fetched' hok
            have hfresh : ∀ (p d0 : Str), look fs p = some d0 →
                look (fsWrite fs (lpathOf target (subpOf pfx o.1)) (fgetData o.2)) p
                  = some d0 := by
              intro p d0 hp0
              have hpne : ¬ lpathOf target (subpOf pfx o.1) = p := by
                intro hcc
                rw [hcc] at hnone
                rw [hp0] at hnone
                exact Option.noConfusion hnone
              rw [look_fsWrite_other fs _ _ p hpne]
              exact hp0
            refine ⟨?_, fun p d0 hp0 => ihp p d0 (hfresh p d0 hp0)⟩
            intro g hg hgm
            rcases List.mem_cons.mp hg with rfl | hg1
            · exact ⟨e, he, fgetData g.2,
                ihp _ _ (look_fsWrite_self fs _ _), hvm.1, hvm.2⟩
            · exact ihm g hg1 hgm
          next hvm =>
            have := dlLoop_nerr_le h mani target pfx rest _ _ _ _ hok
            simp at this

theorem dlLoop_all_skip (h : Str → Str) (mani : List (Str × Entry))
    (target pfx : Str) :
    ∀ (objs fs : List (Str × Str)) (nerr : Nat) (fetched : List Str),
    (∀ o ∈ objs, ¬ subpOf pfx o.1 = maniName → entryMatches h mani target pfx fs o) →
    dlLoop h mani target pfx objs fs nerr fetched = .ok ⟨fs, nerr, fetched⟩ := by
  intro objs
  induction objs with
  | nil => intro fs nerr fetched _; rfl
  | cons o rest ih =>
    intro fs nerr fetched hall
    rw [show o = (o.1, o.2) from rfl]
    unfold dlLoop
    by_cases hm : subpOf pfx o.1 = maniName
    · rw [if_pos hm]
      exact ih fs nerr fetched (fun g hg => hall g (List.mem_cons.mpr (Or.inr hg)))
    · obtain ⟨e, he, d, hd, hsz, hsha⟩ := hall o (List.mem_cons_self o rest) hm
      rw [if_neg hm, if_neg (fun hc => hc (guard_commonPre target (subpOf pfx o.1))),
        hd, he]
      simp only [hsz, hsha, and_self, if_true]
      exact ih fs nerr fetched (fun g hg => hall g (List.mem_cons.mpr (Or.inr hg)))

theorem startsWith_iff (p s : Str) : startsWith p s = true ↔ ∃ rest, s = p ++ rest := by
  induction p generalizing s with
  | nil => simp [startsWith]
  | cons x xs ih =>
    cases s with
    | nil =>
      simp only [startsWith, Bool.false_eq_true, false_iff]
      intro ⟨rest, hr⟩
      exact List.noConfusion hr
    | cons y ys =>
      simp only [startsWith, Bool.and_eq_true, decide_eq_true_eq, ih]
      constructor
      · intro ⟨hxy, rest, hr⟩
        exact ⟨rest, by rw [hxy, hr]; rfl⟩
      · intro ⟨rest, hr⟩
        have h1 := List.cons.inj hr
        exact ⟨h1.1.symm, rest, h1.2⟩

theorem takeWhile_sep (a s : Str) (ha : '/' ∉ a) :
    (a ++ '/' :: s).takeWhile (fun c => ¬ c = '/') = a := by
  induction a with
  | nil => simp [List.takeWhile_cons]
  | cons x xs ih =>
    have hx : ¬ x = '/' := fun hc => ha (hc ▸ List.mem_cons_self x xs)
    have ha' : '/' ∉ xs := fun hc => ha (List.mem_cons.mpr (Or.inr hc))
    show List.takeWhile _ (x :: (xs ++ '/' :: s)) = x :: xs
    rw [List.takeWhile_cons]
    have ih' : List.takeWhile (fun c => !decide (c = '/')) (xs ++ '/' :: s) = xs := by
      simpa using ih ha'
    simp [hx, ih']

theorem pyRstrip_eq_self (c : Char) (a : Str) (ha : ¬ a.getLast? = some c) :
    pyRstrip c a = a := by
  unfold pyRstrip
  rw [dropWhile_eq_self_of_head a.reverse (by
    intro x hx
    rw [List.head?_reverse] at hx
    exact decide_eq_false (fun hxc => ha (hxc ▸ hx)))]
  exact List.reverse_reverse a

theorem pyRstrip_concat (c : Char) (a : Str) : pyRstrip c (a ++ [c]) = pyRstrip c a := by
  unfold pyRstrip
  rw [List.reverse_append]
  simp [List.dropWhile_cons]

theorem mem_dedupAux {α : Type} [DecidableEq α] (l : List α) :
    ∀ (seen : List α) (x : α), x ∈ dedupAux l seen ↔ x ∈ l ∧ x ∉ seen := by
  induction l with
  | nil => intro seen x; simp [dedupAux]
  | cons y ys ih =>
    intro seen x
    unfold dedupAux
    by_cases hy : y ∈ seen
    · rw [if_pos hy, ih]
      constructor
      · intro ⟨h1, h2⟩
        exact ⟨List.mem_cons.mpr (Or.inr h1), h2⟩
      · intro ⟨h1, h2⟩
        rcases List.mem_cons.mp h1 with rfl | h1
        · exact absurd hy h2
        · exact ⟨h1, h2⟩
    · rw [if_neg hy]
      constructor
      · intro hx
        rcases List.mem_cons.mp hx with rfl | hx
        · exact ⟨List.mem_cons_self _ _, hy⟩
        · obtain ⟨h1, h2⟩ := (ih (y :: seen) x).mp hx
          refine ⟨List.mem_cons.mpr (Or.inr h1), ?_⟩
          intro hc
          exact h2 (List.mem_cons.mpr (Or.inr hc))
      · intro ⟨h1, h2⟩
        rcases List.mem_cons.mp h1 with rfl | h1
        · exact List.mem_cons_self _ _
        · by_cases hxy : x = y
          · exact hxy ▸ List.mem_cons_self _ _
          · exact List.mem_cons.mpr (Or.inr ((ih (y :: seen) x).mpr
              ⟨h1, fun hc => (List.mem_cons.mp hc).elim hxy h2⟩))

theorem mem_dedup {α : Type} [DecidableEq α] (l : List α) (x : α) :
    x ∈ dedup l ↔ x ∈ l := by
  unfold dedup
  rw [mem_dedupAux]
  simp

theorem mem_listShallow (keys : List Str) (pfx : Str) (o : Str × Bool) :
    o ∈ listShallow keys pfx ↔ ∃ k ∈ keys, groupingOf? pfx k = some o := by
  unfold listShallow
  rw [mem_dedup, List.mem_filterMap]

theorem split_at_first_sep (k : Str) (hk : '/' ∈ k) :
    ∃ a rest : Str, k = a ++ '/' :: rest ∧ '/' ∉ a
      ∧ a = k.takeWhile (fun c => ¬ c = '/') := by
  induction k with
  | nil => simp at hk
  | cons x xs ih =>
    by_cases hx : x = '/'
    · subst hx
      exact ⟨[], xs, rfl, by simp, by simp [List.takeWhile_cons]⟩
    · have hxs : '/' ∈ xs := by
        rcases List.mem_cons.mp hk with h1 | h1
        · exact absurd h1.symm hx
        · exact h1
      obtain ⟨a, rest, h1, h2, h3⟩ := ih hxs
      refine ⟨x :: a, rest, by rw [List.cons_append, ← h1], ?_, ?_⟩
      · intro hc
        rcases List.mem_cons.mp hc with h4 | h4
        · exact hx h4.symm
        · exact h2 h4
      · rw [List.takeWhile_cons]
        have h3' : a = List.takeWhile (fun c => !decide (c = '/')) xs := by
          simpa using h3
        simp [hx, ← h3']

theorem takeWhile_not_sep (k : Str) :
    '/' ∉ k.takeWhile (fun c => ¬ c = '/') := by
  intro hc
  have := List.mem_takeWhile_imp hc
  simp at this

theorem groupingOf?_dir (pfx k rem : Str) (hk : k = pfx ++ rem) (hrem : '/' ∈ rem) :
    groupingOf? pfx k
      = some (pfx ++ rem.takeWhile (fun c => ¬ c = '/') ++ ['/'], true) := by
  have hs : startsWith pfx k = true := (startsWith_iff pfx k).mpr ⟨rem, hk⟩
  have hdrop : k.drop pfx.length = rem := by
    rw [hk]
    exact List.drop_left pfx rem
  unfold groupingOf?
  rw [hs, hdrop]
  simp [hrem]

theorem groupingOf?_leaf (pfx k rem : Str) (hk : k = pfx ++ rem) (hrem : '/' ∉ rem) :
    groupingOf? pfx k = some (k, false) := by
  have hs : startsWith pfx k = true := (startsWith_iff pfx k).mpr ⟨rem, hk⟩
  have hdrop : k.drop pfx.length = rem := by
    rw [hk]
    exact List.drop_left pfx rem
  unfold groupingOf?
  rw [hs, hdrop]
  simp [hrem]

theorem groupingOf?_cases (pfx k : Str) (o : Str × Bool)
    (h : groupingOf? pfx k = some o) :
    ∃ rem, k = pfx ++ rem ∧
      ((('/' : Char) ∈ rem ∧
        o = (pfx ++ rem.takeWhile (fun c => ¬ c = '/') ++ ['/'], true))
       ∨ (('/' : Char) ∉ rem ∧ o = (k, false))) := by
  unfold groupingOf? at h
  by_cases hs : startsWith pfx k = true
  · rw [hs] at h
    simp only [if_true] at h
    obtain ⟨rest, hrest⟩ := (startsWith_iff pfx k).mp hs
    have hdrop : k.drop pfx.length = rest := by
      rw [hrest]
      exact List.drop_left pfx rest
    rw [hdrop] at h
    by_cases hmem : ('/' : Char) ∈ rest
    · rw [if_pos hmem] at h
      exact ⟨rest, hrest, Or.inl ⟨hmem, (Option.some.inj h).symm⟩⟩
    · rw [if_neg hmem] at h
      exact ⟨rest, hrest, Or.inr ⟨hmem, (Option.some.inj h).symm⟩⟩
  · rw [Bool.not_eq_true] at hs
    rw [hs] at h
    exact absurd h (by simp)

/-- The stripped name of a directory grouping: removing the trailing
separator from `firstSeg ++ "/"` recovers the slash-free first
segment. -/
theorem pyRstrip_grouping (pre tw : Str) (htw : '/' ∉ tw) :
    pyRstrip '/' ((pre ++ tw) ++ ['/']) = pre ++ tw
      ∨ (tw = [] ∧ pyRstrip '/' ((pre ++ tw) ++ ['/']) = pyRstrip '/' pre) := by
  rw [pyRstrip_concat]
  cases htw' : tw with
  | nil =>
    right
    refine ⟨rfl, ?_⟩
    simp
  | cons c cs =>
    left
    apply pyRstrip_eq_self
    rw [getLast?_append_right pre (c :: cs) (by simp)]
    intro hlast
    rw [htw'] at htw
    exact htw (mem_of_getLast?_eq (c :: cs) '/' hlast)

theorem datasets_mem_iff (keys : List Str) (n : Str) :
    n ∈ datasets keys ↔ ∃ k ∈ keys, ∃ rest, k = n ++ '/' :: rest ∧ '/' ∉ n := by
  unfold datasets
  rw [List.mem_filterMap]
  constructor
  · rintro ⟨o, ho, hgo⟩
    obtain ⟨k, hk, hgroup⟩ := (mem_listShallow keys [] o).mp ho
    obtain ⟨rem, hkrem, hcase⟩ := groupingOf?_cases [] k o hgroup
    have hkrem' : k = rem := by simpa using hkrem
    rcases hcase with ⟨hmem, ho2⟩ | ⟨hmem, ho2⟩
    · subst ho2
      simp only [if_true, Option.some.injEq] at hgo
      obtain ⟨a, rest, hsplit, hanot, haeq⟩ :=
        split_at_first_sep k (hkrem' ▸ hmem)
      have htw : rem.takeWhile (fun c => ¬ c = '/') = a := by
        rw [← hkrem', ← haeq]
      have hn : n = a := by
        rw [← hgo, htw]
        rcases pyRstrip_grouping [] a hanot with hl | ⟨htw0, hr⟩
        · simpa using hl
        · subst htw0
          simpa using hr
      exact ⟨k, hk, rest, by rw [hsplit, hn], hn ▸ hanot⟩
    · rw [ho2] at hgo
      simp at hgo
  · rintro ⟨k, hk, rest, hkeq, hn⟩
    refine ⟨(n ++ ['/'], true), ?_, ?_⟩
    · rw [mem_listShallow]
      refine ⟨k, hk, ?_⟩
      have hdir := groupingOf?_dir [] k k (by simp) (by rw [hkeq]; simp)
      rw [hdir]
      have htw : k.takeWhile (fun c => ¬ c = '/') = n := by
        rw [hkeq]
        exact takeWhile_sep n rest hn
      rw [htw]
      simp
    · simp only [if_true, Option.some.injEq]
      rcases pyRstrip_grouping [] n hn with hl | ⟨hn0, hr⟩
      · simpa using hl
      · subst hn0
        simpa using hr

theorem revisionsGiven_notFound_iff (keys : List Str) (d : Str) :
    revisionsGiven keys d = .error .notFound
      ↔ ∀ k ∈ keys, ¬ ∃ rem, k = (d ++ ['/']) ++ rem ∧ ('/' : Char) ∈ rem := by
  have key : ((listShallow keys (d ++ ['/'])).filterMap
        (fun o => if o.2 then some (splitCh '/' (pyRstrip '/' o.1)) else none) = [])
      ↔ ∀ k ∈ keys, ¬ ∃ rem, k = (d ++ ['/']) ++ rem ∧ ('/' : Char) ∈ rem := by
    rw [List.filterMap_eq_nil_iff]
    constructor
    · rintro hall k hk ⟨rem, hkeq, hmem⟩
      have hdir := groupingOf?_dir (d ++ ['/']) k rem hkeq hmem
      have ho : ((d ++ ['/']) ++ rem.takeWhile (fun c => ¬ c = '/') ++ ['/'], true)
          ∈ listShallow keys (d ++ ['/']) := by
        rw [mem_listShallow]
        exact ⟨k, hk, hdir⟩
      have := hall _ ho
      simp at this
    · intro hall o ho
      obtain ⟨k, hk, hgroup⟩ := (mem_listShallow keys (d ++ ['/']) o).mp ho
      obtain ⟨rem, hkrem, hcase⟩ := groupingOf?_cases (d ++ ['/']) k o hgroup
      rcases hcase with ⟨hmem, _⟩ | ⟨_, ho2⟩
      · exact absurd ⟨rem, hkrem, hmem⟩ (hall k hk)
      · rw [ho2]
        simp
  unfold revisionsGiven
  by_cases hr : (listShallow keys (d ++ ['/'])).filterMap
      (fun o => if o.2 then some (splitCh '/' (pyRstrip '/' o.1)) else none) = []
  · rw [if_pos hr]
    simp only [true_iff]
    exact key.mp hr
  · rw [if_neg hr]
    constructor
    · intro hc
      exact absurd hc (by simp)
    · intro hc
      exact absurd (key.mpr hc) hr

theorem revisionsGiven_ok_pairs (keys : List Str) (d : Str) (l : List (List Str))
    (hd : '/' ∉ d)
    (hnes : ∀ k ∈ keys, ∀ rem : Str, k = (d ++ ['/']) ++ rem →
      ¬ (rem : Str).head? = some '/')
    (hok : revisionsGiven keys d = .ok l) :
    l ≠ [] ∧ ∀ p ∈ l, ∃ r : Str, p = [d, r] ∧ '/' ∉ r ∧ r ≠ [] := by
  unfold revisionsGiven at hok
  split at hok
  next => exact absurd hok (by simp)
  next hne =>
    have hl : l = (listShallow keys (d ++ ['/'])).filterMap
        (fun o => if o.2 then some (splitCh '/' (pyRstrip '/' o.1)) else none) :=
      (Option.some.inj (congrArg (fun x => match x with
        | Except.ok v => some v
        | Except.error _ => none) hok)).symm
    constructor
    · rw [hl]
      exact hne
    · intro p hp
      rw [hl] at hp
      obtain ⟨o, ho, hgo⟩ := List.mem_filterMap.mp hp
      obtain ⟨k, hk, hgroup⟩ := (mem_listShallow keys (d ++ ['/']) o).mp ho
      obtain ⟨rem, hkrem, hcase⟩ := groupingOf?_cases (d ++ ['/']) k o hgroup
      rcases hcase with ⟨hmem, ho2⟩ | ⟨_, ho2⟩
      · subst ho2
        simp only [if_true, Option.some.injEq] at hgo
        have hrh := hnes k hk rem hkrem
        obtain ⟨r0, rem', hrem⟩ : ∃ r0 rem', rem = r0 :: rem' := by
          cases rem with
          | nil => simp at hmem
          | cons a b => exact ⟨a, b, rfl⟩
        have hr0 : ¬ r0 = '/' := by
          intro hc
          rw [hrem] at hrh
          exact hrh (by rw [hc]; rfl)
        have htwne : rem.takeWhile (fun c => ¬ c = '/') ≠ [] := by
          rw [hrem, List.takeWhile_cons]
          simp [hr0]
        have htwnosep : '/' ∉ rem.takeWhile (fun c => ¬ c = '/') :=
          takeWhile_not_sep rem
        have hstrip : pyRstrip '/'
            ((d ++ ['/']) ++ rem.takeWhile (fun c => ¬ c = '/') ++ ['/'])
              = (d ++ ['/']) ++ rem.takeWhile (fun c => ¬ c = '/') := by
          rcases pyRstrip_grouping (d ++ ['/']) (rem.takeWhile (fun c => ¬ c = '/'))
              htwnosep with hl2 | ⟨htw0, _⟩
          · simpa [List.append_assoc] using hl2
          · exact absurd htw0 htwne
        refine ⟨rem.takeWhile (fun c => ¬ c = '/'), ?_, htwnosep, htwne⟩
        rw [← hgo, hstrip]
        have hshape : ((d ++ ['/']) ++ rem.takeWhile (fun c => ¬ c = '/') : Str)
            = d ++ '/' :: rem.takeWhile (fun c => ¬ c = '/') := by
          simp
        rw [hshape, splitCh_cons_sep '/' d _ hd,
          splitCh_no_sep '/' _ htwnosep]
      · rw [ho2] at hgo
        simp at hgo

/-! ## Claim theorems -/

/-- Claim C3, counterexample: for the one-file tree whose subpath is
`a,b` (a legal file name containing a comma), `write_manifest` succeeds
but `read_manifest` on the written bytes fails with a `ValueError`
instead of returning the one-entry mapping the claim promises for
arbitrary relative subpaths: the unescaped comma splits the line into
four fields. -/
theorem C3_counterexample :
    write_manifest hW [(("a,b").data, ("x").data)] false
        = .ok (manifestContent hW [(("a,b").data, ("x").data)])
    ∧ readManifest (some (manifestContent hW [(("a,b").data, ("x").data)]))
        = .error .badLine := by
  exact ⟨rfl, rfl⟩

/-- Claim C3, amended: for every directory tree of regular files whose
subpaths (manifest file excluded) are distinct and, like the sha256 hex
digests, contain no double quote, comma or newline, writing the
manifest and then reading it back yields a mapping keyed uniquely by
posix subpath with exactly one entry per file other than the manifest
itself, whose size is the file's byte length and whose digest is the
file's hash. -/
theorem C3_manifest_roundtrip (h : Str → Str) (files : List (Str × Str))
    (ow : Bool) (c : Str)
    (hclean : ∀ f ∈ files, ¬ f.1 = maniName → cleanStr f.1 ∧ cleanStr (h f.2))
    (hnodup : ((files.filter (fun f => ¬ f.1 = maniName)).map Prod.fst).Nodup)
    (hw : write_manifest h files ow = .ok c) :
    readManifest (some c)
      = .ok ((files.filter (fun f => ¬ f.1 = maniName)).map
          (fun f => (f.1, ⟨(f.2.length : Int), h f.2⟩))) := by
  have hc : c = manifestContent h files := by
    unfold write_manifest at hw
    split at hw
    · exact absurd hw (by simp)
    · cases hw
      rfl
  subst hc
  rw [readManifest_content h files hclean]
  have hcf : ∀ f ∈ files.filter (fun f => ¬ f.1 = maniName),
      cleanStr f.1 ∧ cleanStr (h f.2) := by
    intro f hf
    have hm := List.mem_filter.mp hf
    exact hclean f hm.1 (by simpa using hm.2)
  rw [parseGo_ok h _ [] hcf (fun f _ => rfl) hnodup]
  simp

/-- Claim C3, witness: a concrete two-file tree round-trips to exactly
its two entries. -/
theorem C3_witness :
    readManifest (some (manifestContent hW
        [(("a").data, ("xy").data), (("b/c").data, ("z").data)]))
      = .ok [(("a").data, ⟨2, ("d2").data⟩), (("b/c").data, ⟨1, ("d1").data⟩)] := by
  have := C3_manifest_roundtrip hW
    [(("a").data, ("xy").data), (("b/c").data, ("z").data)] false
    (manifestContent hW [(("a").data, ("xy").data), (("b/c").data, ("z").data)])
    (by decide) (by decide) (by rfl)
  exact this

/-- Claim C6: `read_manifest` raises `FileNotFoundError` when no
manifest file exists in the directory; it fails with the duplicate
assertion (Corrupt) whenever the written lines repeat a subpath; and on
success the returned mapping's subpath keys are pairwise distinct. -/
theorem C6_read_manifest_contract :
    (∀ fs dir, look fs (pathJoin2 dir maniName) = none →
      readManifestDir fs dir = .error .notFound)
    ∧ (∀ (h : Str → Str) (files : List (Str × Str)),
        (∀ f ∈ files, ¬ f.1 = maniName → cleanStr f.1 ∧ cleanStr (h f.2)) →
        ¬ ((files.filter (fun f => ¬ f.1 = maniName)).map Prod.fst).Nodup →
        readManifest (some (manifestContent h files)) = .error .corrupt)
    ∧ (∀ c m, readManifest (some c) = .ok m → (m.map Prod.fst).Nodup) := by
  refine ⟨?_, ?_, ?_⟩
  · intro fs dir hnone
    unfold readManifestDir
    rw [hnone]
    rfl
  · intro h files hclean hdup
    rw [readManifest_content h files]
    · apply parseGo_corrupt
      · intro f hf
        have hm := List.mem_filter.mp hf
        exact hclean f hm.1 (by simpa using hm.2)
      · simp
      · simpa using hdup
    · exact hclean
  · intro c m hok
    exact parseGo_nodup (pyLines c) [] m (by simp) hok

/-- Claim C6, witness: a concrete missing manifest yields
`FileNotFoundError`; a concrete duplicated subpath yields the Corrupt
assertion failure. -/
theorem C6_witness :
    readManifestDir [] [] = .error .notFound
    ∧ readManifest (some (manifestContent hW
        [(("a").data, ("x").data), (("a").data, ("yz").data)])) = .error .corrupt := by
  constructor
  · exact C6_read_manifest_contract.1 [] [] (by rfl)
  · exact C6_read_manifest_contract.2.1 hW
      [(("a").data, ("x").data), (("a").data, ("yz").data)] (by decide) (by decide)

/-- Claim C8: for a remote object of `s.length` bytes, `fget_object`
issues exactly `ceil(size / 2^20)` byte-range reads (none for an empty
object); every read is 1 MiB long except, when the size is not a
multiple of 1 MiB, the final read of `size mod 2^20` bytes at offset
`2^20 * (size / 2^20)`; the first read starts at offset 0, consecutive
reads are contiguous with strictly increasing offsets (so the ranges
exactly cover the object); and the bytes written sequentially to the
destination equal the object's bytes. -/
theorem C8_fget_chunking (s : Str) :
    (fgetReads s.length).length = (s.length + 1024 ^ 2 - 1) / 1024 ^ 2
    ∧ (s.length = 0 → fgetReads s.length = [])
    ∧ (s.length % 1024 ^ 2 = 0 → ∀ r ∈ fgetReads s.length, r.2 = 1024 ^ 2)
    ∧ (¬ s.length % 1024 ^ 2 = 0 →
        (∀ r ∈ (fgetReads s.length).dropLast, r.2 = 1024 ^ 2)
        ∧ (fgetReads s.length).getLast?
            = some (1024 ^ 2 * (s.length / 1024 ^ 2), s.length % 1024 ^ 2))
    ∧ (¬ s.length = 0 → (fgetReads s.length).head?.map Prod.fst = some 0)
    ∧ (¬ s.length = 0 → (fgetReads s.length).getLast?.map (fun r => r.1 + r.2)
        = some s.length)
    ∧ List.Chain' (fun a b : Nat × Nat => a.1 + a.2 = b.1 ∧ a.1 < b.1)
        (fgetReads s.length)
    ∧ fgetData s = s := by
  set n := s.length with hn
  refine ⟨?_, ?_, ?_, ?_, ?_, ?_, ?_, fgetData_eq s⟩
  · unfold fgetReads
    rw [withOffsets_length]
    unfold chunkSizes
    by_cases h : n % 1024 ^ 2 ≠ 0
    · rw [if_pos h]
      simp only [List.length_append, List.length_replicate, List.length_singleton]
      omega
    · rw [if_neg h]
      simp only [List.length_replicate]
      push_neg at h
      omega
  · intro h0
    rw [h0]
    rfl
  · intro hmod r hr
    have h2 := withOffsets_snd_mem _ _ _ hr
    unfold chunkSizes at h2
    rw [if_neg (by omega)] at h2
    exact List.eq_of_mem_replicate h2
  · intro hmod
    have hcs : chunkSizes n
        = List.replicate (n / 1024 ^ 2) (1024 ^ 2) ++ [n % 1024 ^ 2] := by
      unfold chunkSizes
      rw [if_pos hmod]
    constructor
    · intro r hr
      unfold fgetReads at hr
      rw [hcs, withOffsets_concat, List.dropLast_concat] at hr
      have h2 := withOffsets_snd_mem _ _ _ hr
      exact List.eq_of_mem_replicate h2
    · unfold fgetReads
      rw [hcs, withOffsets_concat, List.getLast?_concat, List.sum_replicate,
        smul_eq_mul, Nat.zero_add, Nat.mul_comm]
  · intro hne
    have hcons : ∃ c cs, chunkSizes n = c :: cs := by
      rcases hc : chunkSizes n with _ | ⟨c, cs⟩
      · have := chunkSizes_sum n
        rw [hc] at this
        simp at this
        exact absurd this.symm hne
      · exact ⟨c, cs, rfl⟩
    obtain ⟨c, cs, hc⟩ := hcons
    unfold fgetReads
    rw [hc]
    rfl
  · intro hne
    have hcne : chunkSizes n ≠ [] := by
      intro hc
      have := chunkSizes_sum n
      rw [hc] at this
      simp at this
      exact hne this.symm
    unfold fgetReads
    rw [withOffsets_last_end _ 0 hcne, chunkSizes_sum, Nat.zero_add]
  · exact withOffsets_chain _ 0 (chunkSizes_pos n)

/-- Claim C1: the spec requires that a remote key with `..`-style
segments never produce a local write target outside the target
directory — the operation must fail instead.  The code's guard
(`os.path.commonprefix((target_directory, lpath)) == target_directory`)
is a character-wise prefix check that `..` segments satisfy, so on this
concrete store holding the key `n/r/../evil`, download completes with
zero issues and writes the file at the literal path `/data/../evil`,
whose resolved location `/evil` lies outside `/data`: the code
violates the claim. -/
theorem C1_escape_bug :
    download hW ("n").data ("r").data ("/data").data false [("/data").data]
        [(("n/r/djarchive-manifest.csv").data, ("\"1\",\"d1\",\"../evil\"\n").data),
         (("n/r/../evil").data, ("E").data)] []
      = .ok ⟨[(("/data/../evil").data, ("E").data),
              (("/data/djarchive-manifest.csv").data,
               ("\"1\",\"d1\",\"../evil\"\n").data)],
             0,
             [("n/r/djarchive-manifest.csv").data, ("n/r/../evil").data]⟩
    ∧ commonPre ("/data").data (lpathOf ("/data").data (("../evil").data))
        = ("/data").data
    ∧ resolvePath (("/data/../evil").data) = ("/evil").data
    ∧ insideDir (resolvePath ("/data").data) (resolvePath (("/data/../evil").data))
        = false := by
  refine ⟨?_, ?_, ?_, ?_⟩ <;> rfl

/-- Claim C7: download raises `FileNotFoundError` and transfers
nothing when the target directory does not exist and `create_target`
is false; and when the remote manifest object at
`name/revision/MANIFEST_FNAME` is absent from the store, download
fails with `FileNotFoundError` (revision not found/incomplete) having
fetched nothing. -/
theorem C7_download_structural :
    (∀ (hh : Str → Str) (name rev target : Str) (dirs : List Str)
        (store fs : List (Str × Str)), ¬ target ∈ dirs →
      download hh name rev target false dirs store fs = .error ⟨.notFound, []⟩)
    ∧ (∀ (hh : Str → Str) (name rev target : Str) (create : Bool)
        (dirs : List Str) (store fs : List (Str × Str)),
      target ∈ (if create then target :: dirs else dirs) →
      look store (pathJoin2 (pathJoin2 name rev) maniName) = none →
      download hh name rev target create dirs store fs = .error ⟨.notFound, []⟩) := by
  constructor
  · intro hh name rev target dirs store fs hdir
    exact download_target_missing hh name rev target dirs store fs hdir
  · intro hh name rev target create dirs store fs hdir hnone
    exact download_no_mani hh name rev target create dirs store fs hdir hnone

/-- Claim C7, witness: a concrete missing target directory, and a
concrete store without the revision's manifest object, each fail
`FileNotFoundError` with an empty fetch trace. -/
theorem C7_witness :
    download hW ("n").data ("r").data ("/t").data false [] [] []
      = .error ⟨.notFound, []⟩
    ∧ download hW ("n").data ("r").data ("/t").data false [("/t").data]
        [(("n/r/f.txt").data, ("x").data)] [] = .error ⟨.notFound, []⟩ := by
  constructor
  · exact C7_download_structural.1 hW ("n").data ("r").data ("/t").data [] [] []
      (by simp)
  · exact C7_download_structural.2 hW ("n").data ("r").data ("/t").data false
      [("/t").data] [(("n/r/f.txt").data, ("x").data)] [] (by simp) (by rfl)

/-- Claim C10: during the main download loop, an enumerated object
whose subpath (other than the manifest name) has no entry in the
fetched manifest aborts the whole download with an uncaught `KeyError`
— both when a file already exists at the local path (lookup before the
skip comparison) and when it does not (lookup in the post-fetch
verification, after the object was fetched) — rather than being
skipped or counted as an integrity issue. -/
theorem C10_unlisted_key_aborts (h : Str → Str) (mani : List (Str × Entry))
    (target pfx spath content : Str) (rest fs : List (Str × Str)) (nerr : Nat)
    (fetched : List Str)
    (hnm : ¬ subpOf pfx spath = maniName)
    (hmani : look mani (subpOf pfx spath) = none) :
    (∀ d, look fs (lpathOf target (subpOf pfx spath)) = some d →
      dlLoop h mani target pfx ((spath, content) :: rest) fs nerr fetched
        = .error ⟨.keyError, fetched⟩)
    ∧ (look fs (lpathOf target (subpOf pfx spath)) = none →
      dlLoop h mani target pfx ((spath, content) :: rest) fs nerr fetched
        = .error ⟨.keyError, fetched ++ [spath]⟩) := by
  have hguard : ¬ ¬ commonPre target (lpathOf target (subpOf pfx spath)) = target :=
    fun hc => hc (guard_commonPre target (subpOf pfx spath))
  constructor
  · intro d hd
    unfold dlLoop
    rw [if_neg hnm, if_neg hguard, hd, hmani]
  · intro hnone
    unfold dlLoop
    rw [if_neg hnm, if_neg hguard, hnone, hmani]

/-- Claim C10, witness: a concrete store object `n/r/extra` absent
from the manifest aborts the download loop with `KeyError` in both
branches (no local file, and a pre-existing local file). -/
theorem C10_witness :
    dlLoop hW [] ("/t").data ("n/r").data [(("n/r/extra").data, ("zz").data)] [] 0 []
      = .error ⟨.keyError, [("n/r/extra").data]⟩
    ∧ dlLoop hW [] ("/t").data ("n/r").data [(("n/r/extra").data, ("zz").data)]
        [(("/t/extra").data, ("old").data)] 0 []
      = .error ⟨.keyError, []⟩ := by
  constructor
  · exact (C10_unlisted_key_aborts hW [] ("/t").data ("n/r").data
      ("n/r/extra").data ("zz").data [] [] 0 [] (by decide) (by rfl)).2 (by rfl)
  · exact (C10_unlisted_key_aborts hW [] ("/t").data ("n/r").data
      ("n/r/extra").data ("zz").data [] [(("/t/extra").data, ("old").data)] 0 []
      (by decide) (by rfl)).1 ("old").data (by rfl)

/-- Claim C9: on the example store (`acme/rev1/`, `acme/rev2/`,
`beta/rev1/` groupings), `datasets()` yields `acme` and `beta`,
`revisions("acme")` yields the pairs `(acme, rev1)` and `(acme, rev2)`,
and `revisions("missing")` fails with `FileNotFoundError`.  In general:
`datasets()` yields exactly the slash-free first segments of the stored
keys, with the trailing separator stripped; `revisions(d)` fails
`FileNotFoundError` exactly when no key goes deeper than `d/`; and a
successful `revisions(d)` is a nonempty list with one `(d, revision)`
pair per grouping under `d/`. -/
theorem C9_catalog :
    (datasets [("acme/rev1/f").data, ("acme/rev2/f").data, ("beta/rev1/f").data]
        = [("acme").data, ("beta").data]
      ∧ revisionsGiven [("acme/rev1/f").data, ("acme/rev2/f").data,
          ("beta/rev1/f").data] ("acme").data
        = .ok [[("acme").data, ("rev1").data], [("acme").data, ("rev2").data]]
      ∧ revisionsGiven [("acme/rev1/f").data, ("acme/rev2/f").data,
          ("beta/rev1/f").data] ("missing").data = .error .notFound)
    ∧ (∀ (keys : List Str) (n : Str),
        n ∈ datasets keys ↔ ∃ k ∈ keys, ∃ rest, k = n ++ '/' :: rest ∧ '/' ∉ n)
    ∧ (∀ (keys : List Str) (d : Str),
        revisionsGiven keys d = .error .notFound
          ↔ ∀ k ∈ keys, ¬ ∃ rem, k = (d ++ ['/']) ++ rem ∧ ('/' : Char) ∈ rem)
    ∧ (∀ (keys : List Str) (d : Str) (l : List (List Str)), '/' ∉ d →
        (∀ k ∈ keys, ∀ rem : Str, k = (d ++ ['/']) ++ rem →
          ¬ (rem : Str).head? = some '/') →
        revisionsGiven keys d = .ok l →
        l ≠ [] ∧ ∀ p ∈ l, ∃ r : Str, p = [d, r] ∧ '/' ∉ r ∧ r ≠ []) := by
  refine ⟨⟨?_, ?_, ?_⟩, datasets_mem_iff, revisionsGiven_notFound_iff,
    revisionsGiven_ok_pairs⟩
  · rfl
  · rfl
  · rfl

/-- Claim C9, witness: the general parts applied on the example store:
`acme` is a dataset name because the key `acme/rev1/f` extends
`acme/`; `revisions("missing")` fails because no key extends
`missing/`; and the successful `revisions("acme")` yields only
`(acme, revision)` pairs. -/
theorem C9_witness :
    ("acme").data ∈ datasets [("acme/rev1/f").data, ("acme/rev2/f").data,
        ("beta/rev1/f").data]
    ∧ revisionsGiven [("acme/rev1/f").data, ("acme/rev2/f").data,
        ("beta/rev1/f").data] ("missing").data = .error .notFound
    ∧ ∀ p ∈ [[("acme").data, ("rev1").data], [("acme").data, ("rev2").data]],
        ∃ r : Str, p = [("acme").data, r] ∧ '/' ∉ r ∧ r ≠ [] := by
  refine ⟨?_, ?_, ?_⟩
  · exact (C9_catalog.2.1 [("acme/rev1/f").data, ("acme/rev2/f").data,
      ("beta/rev1/f").data] ("acme").data).mpr
      ⟨("acme/rev1/f").data, by decide, ("rev1/f").data, by decide, by decide⟩
  · apply (C9_catalog.2.2.1 [("acme/rev1/f").data, ("acme/rev2/f").data,
      ("beta/rev1/f").data] ("missing").data).mpr
    rintro k hk ⟨rem, hkeq, hmem⟩
    have hh : k.head? = some 'm' := by
      rw [hkeq]
      rfl
    fin_cases hk <;> exact absurd hh (by decide)
  · exact (C9_catalog.2.2.2 [("acme/rev1/f").data, ("acme/rev2/f").data,
      ("beta/rev1/f").data] ("acme").data
      [[("acme").data, ("rev1").data], [("acme").data, ("rev2").data]]
      (by decide)
      (by
        intro k hk rem hrem
        have hh : rem.head? = (k.drop 5).head? := by
          rw [hrem]
          rfl
        rw [hh]
        fin_cases hk <;> decide)
      (by rfl)).2

/-- Claim C4, counterexample: after a clean first download of a
one-file revision (zero issues), an immediately repeated download does
not perform zero object fetches as claimed — it unconditionally
re-fetches the manifest object (`self.fget_object(ssubp, lpath, ...)`
runs before the main loop on every invocation), so its fetch list is
the one-element manifest list, not empty. -/
theorem C4_counterexample :
    download hW ("n").data ("r").data ("/t").data false [("/t").data]
        [(("n/r/djarchive-manifest.csv").data, ("\"2\",\"d2\",\"sub/a.txt\"\n").data),
         (("n/r/sub/a.txt").data, ("hi").data)] []
      = .ok ⟨[(("/t/sub/a.txt").data, ("hi").data),
              (("/t/djarchive-manifest.csv").data, ("\"2\",\"d2\",\"sub/a.txt\"\n").data)],
             0, [("n/r/djarchive-manifest.csv").data, ("n/r/sub/a.txt").data]⟩
    ∧ download hW ("n").data ("r").data ("/t").data false [("/t").data]
        [(("n/r/djarchive-manifest.csv").data, ("\"2\",\"d2\",\"sub/a.txt\"\n").data),
         (("n/r/sub/a.txt").data, ("hi").data)]
        [(("/t/sub/a.txt").data, ("hi").data),
         (("/t/djarchive-manifest.csv").data, ("\"2\",\"d2\",\"sub/a.txt\"\n").data)]
      = .ok ⟨[(("/t/djarchive-manifest.csv").data, ("\"2\",\"d2\",\"sub/a.txt\"\n").data),
              (("/t/sub/a.txt").data, ("hi").data)],
             0, [("n/r/djarchive-manifest.csv").data]⟩
    ∧ ¬ ([("n/r/djarchive-manifest.csv").data] = ([] : List Str)) := by
  refine ⟨?_, ?_, ?_⟩
  · rfl
  · rfl
  · simp

/-- Claim C4, amended: if a download of a revision completes with zero
integrity issues and neither the local files nor the remote revision
change, an immediately repeated download fetches only the manifest
object (which the code unconditionally re-fetches) and no file object
— every file is skip-verified because its local size and digest match
the manifest entry — and again reports zero integrity issues.  The
target directory is a nonempty path without a trailing separator. -/
theorem C4_idempotent_redownload (h : Str → Str) (name rev target : Str)
    (create : Bool) (dirs : List Str) (store fs fs1 : List (Str × Str))
    (fetched1 : List Str)
    (htne : target ≠ []) (htls : ¬ target.getLast? = some '/')
    (h1 : download h name rev target create dirs store fs = .ok ⟨fs1, 0, fetched1⟩) :
    ∃ fs2, download h name rev target create dirs store fs1
      = .ok ⟨fs2, 0, [pathJoin2 (pathJoin2 name rev) maniName]⟩ := by
  by_cases hdir : target ∈ (if create then target :: dirs else dirs)
  case neg =>
    have herr : download h name rev target create dirs store fs
        = .error ⟨.notFound, []⟩ := by
      simp only [download]
      rw [if_neg hdir]
    rw [herr] at h1
    exact absurd h1 (by simp)
  case pos =>
    rcases hmc : look store (pathJoin2 (pathJoin2 name rev) maniName) with _ | mc
    · have herr := download_no_mani h name rev target create dirs store fs hdir hmc
      rw [herr] at h1
      exact absurd h1 (by simp)
    · rw [download_eq_body h name rev target create dirs store fs mc hdir hmc] at h1
      rcases hpm : readManifest (some (fgetData mc)) with e | mani
      · rw [downloadBody_errors h name rev target store fs mc e hpm] at h1
        exact absurd h1 (by simp)
      · rw [downloadBody_eq_loop h name rev target store fs mc mani hpm] at h1
        obtain ⟨hmatches, _⟩ := dlLoop_ok_invariant h mani target (pathJoin2 name rev)
          _ _ 0 _ fs1 fetched1 h1
        rw [download_eq_body h name rev target create dirs store fs1 mc hdir hmc,
          downloadBody_eq_loop h name rev target store fs1 mc mani hpm]
        refine ⟨fsWrite fs1 (pathJoin2 target maniName) (fgetData mc), ?_⟩
        apply dlLoop_all_skip
        intro o ho honm
        obtain ⟨e, he, d, hd, hsz, hsha⟩ := hmatches o ho honm
        refine ⟨e, he, d, ?_, hsz, hsha⟩
        have hhead : ¬ (subpOf (pathJoin2 name rev) o.1).head? = some '/' :=
          pyLstrip_head_ne '/' _
        have hne : ¬ pathJoin2 target maniName
            = lpathOf target (subpOf (pathJoin2 name rev) o.1) := by
          intro hc
          exact lpath_ne_maniLpath target _ htne htls honm hhead hc.symm
        rw [look_fsWrite_other fs1 _ _ _ hne]
        exact hd

/-- Claim C4, witness: a concrete clean first download followed by a
second run that fetches only the manifest object and reports zero
issues. -/
theorem C4_witness :
    ∃ fs2, download hW ("n").data ("r").data ("/t").data false [("/t").data]
        [(("n/r/djarchive-manifest.csv").data, ("\"2\",\"d2\",\"sub/a.txt\"\n").data),
         (("n/r/sub/a.txt").data, ("hi").data)]
        [(("/t/sub/a.txt").data, ("hi").data),
         (("/t/djarchive-manifest.csv").data, ("\"2\",\"d2\",\"sub/a.txt\"\n").data)]
      = .ok ⟨fs2, 0, [pathJoin2 (pathJoin2 ("n").data ("r").data) maniName]⟩ :=
  C4_idempotent_redownload hW ("n").data ("r").data ("/t").data false [("/t").data]
    [(("n/r/djarchive-manifest.csv").data, ("\"2\",\"d2\",\"sub/a.txt\"\n").data),
     (("n/r/sub/a.txt").data, ("hi").data)] []
    [(("/t/sub/a.txt").data, ("hi").data),
     (("/t/djarchive-manifest.csv").data, ("\"2\",\"d2\",\"sub/a.txt\"\n").data)]
    [("n/r/djarchive-manifest.csv").data, ("n/r/sub/a.txt").data]
    (by decide) (by decide) (by rfl)

/-- Claim C2: in both upload modes the manifest object at
`name/revision/MANIFEST_FNAME` is put strictly last — it is the final
put and no earlier put uses its key — so an upload interrupted at any
point before the final put (the store holding a strict prefix `Q` of
the put sequence) leaves the revision without a manifest object, and a
subsequent download of that revision fails with `FileNotFoundError`
before fetching anything. -/
theorem C2_manifest_last (h : Str → Str) (name rev : Str) (files : List (Str × Str))
    (mc : Str) (hsub : ∀ f ∈ files, ¬ (f.1 : Str).head? = some '/') :
    (∀ puts, uploadCreatingManifest h name rev files = .ok puts →
      puts.getLast? = some (key3 name rev maniName, manifestContent h files)
      ∧ (∀ p ∈ puts.dropLast, ¬ p.1 = key3 name rev maniName)
      ∧ (∀ Q rest2 : List (Str × Str), puts = Q ++ rest2 → rest2 ≠ [] →
          key3 name rev maniName ∉ Q.map Prod.fst
          ∧ ∀ (hh : Str → Str) (target : Str) (dirs : List Str)
              (fs : List (Str × Str)), target ∈ dirs →
              download hh name rev target false dirs Q fs = .error ⟨.notFound, []⟩))
    ∧ (∀ puts, uploadUsingManifest h name rev files mc = .ok puts →
      puts.getLast? = some (key3 name rev maniName, mc)
      ∧ (∀ p ∈ puts.dropLast, ¬ p.1 = key3 name rev maniName)
      ∧ (∀ Q rest2 : List (Str × Str), puts = Q ++ rest2 → rest2 ≠ [] →
          key3 name rev maniName ∉ Q.map Prod.fst
          ∧ ∀ (hh : Str → Str) (target : Str) (dirs : List Str)
              (fs : List (Str × Str)), target ∈ dirs →
              download hh name rev target false dirs Q fs = .error ⟨.notFound, []⟩)) := by
  constructor
  · intro puts hok
    unfold uploadCreatingManifest at hok
    split at hok
    · exact absurd hok (by simp)
    · have hput : puts = filePuts name rev files
          ++ [(key3 name rev maniName, manifestContent h files)] := by
        cases hok
        rfl
      rw [hput]
      exact puts_last_mani name rev _ _ (maniKey_not_mem_filePuts name rev files hsub)
  · intro puts hok
    unfold uploadUsingManifest at hok
    split at hok
    next => exact absurd hok (by simp)
    next mani0 hmani0 =>
      split at hok
      next => exact absurd hok (by simp)
      next fp hfp =>
        have hput : puts = fp ++ [(key3 name rev maniName, mc)] := by
          cases hok
          rfl
        have hfpk : key3 name rev maniName ∉ fp.map Prod.fst := by
          intro hmem
          rcases List.mem_map.mp hmem with ⟨p, hp, hpk⟩
          rcases upUseGo_ok_mem h name rev mani0 files [] fp hfp p hp with hc | ⟨g, hg, hgm, hgk⟩
          · simp at hc
          · exact key3_ne_maniKey name rev g.1 hgm (hsub g hg) (hgk.symm.trans hpk)
        rw [hput]
        exact puts_last_mani name rev _ _ hfpk

/-- Claim C2, witness: for a concrete one-file create-mode upload, the
manifest object is the last put, and downloading from a store holding
only the strict prefix before it (the lone file object) fails
`FileNotFoundError` with nothing fetched. -/
theorem C2_witness :
    (filePuts ("n").data ("r").data [(("a").data, ("x").data)]
        ++ [(key3 ("n").data ("r").data maniName,
             manifestContent hW [(("a").data, ("x").data)])]).getLast?
      = some (key3 ("n").data ("r").data maniName,
          manifestContent hW [(("a").data, ("x").data)])
    ∧ download hW ("n").data ("r").data ("/t").data false [("/t").data]
        (filePuts ("n").data ("r").data [(("a").data, ("x").data)]) []
      = .error ⟨.notFound, []⟩ := by
  have hT := (C2_manifest_last hW ("n").data ("r").data [(("a").data, ("x").data)]
    [] (by decide)).1
    (filePuts ("n").data ("r").data [(("a").data, ("x").data)]
      ++ [(key3 ("n").data ("r").data maniName,
           manifestContent hW [(("a").data, ("x").data)])]) (by rfl)
  refine ⟨hT.1, ?_⟩
  exact (hT.2.2 (filePuts ("n").data ("r").data [(("a").data, ("x").data)])
    [(key3 ("n").data ("r").data maniName,
      manifestContent hW [(("a").data, ("x").data)])] rfl (by simp)).2
    hW ("/t").data [("/t").data] [] (by simp)

/-- Claim C5: in verify-mode upload (manifest present), the first
walked file whose subpath has no manifest entry raises
`FileNotFoundError`, and the first walked file whose size or digest
disagrees with its manifest entry raises `ValueError` carrying the
local and reference size and digest; in either case the store received
exactly the objects of the walked files before the offender, and the
manifest object was never put. -/
theorem C5_verify_upload_failfast (h : Str → Str) (name rev : Str) (mc : Str)
    (mani : List (Str × Entry)) (pre post : List (Str × Str)) (s c : Str)
    (hmani : readManifest (some mc) = .ok mani)
    (hpre : ∀ f ∈ pre, ¬ f.1 = maniName → ∃ e, look mani f.1 = some e ∧
      (digest h f.2).1 = e.size ∧ (digest h f.2).2 = e.sha)
    (hs : ¬ s = maniName)
    (hsub : ∀ f ∈ pre, ¬ (f.1 : Str).head? = some '/') :
    (look mani s = none →
      uploadUsingManifest h name rev (pre ++ (s, c) :: post) mc
        = .error ⟨.notFound s, filePuts name rev pre⟩
      ∧ key3 name rev maniName ∉ (filePuts name rev pre).map Prod.fst)
    ∧ (∀ e : Entry, look mani s = some e →
      ¬ ((digest h c).1 = e.size ∧ (digest h c).2 = e.sha) →
      uploadUsingManifest h name rev (pre ++ (s, c) :: post) mc
        = .error ⟨.mismatch s (digest h c).1 e.size (digest h c).2 e.sha,
            filePuts name rev pre⟩
      ∧ key3 name rev maniName ∉ (filePuts name rev pre).map Prod.fst) := by
  have hnotmem := maniKey_not_mem_filePuts name rev pre hsub
  constructor
  · intro hnone
    refine ⟨?_, hnotmem⟩
    unfold uploadUsingManifest
    rw [hmani]
    show (match upUseGo h name rev mani (pre ++ (s, c) :: post) [] with
          | Except.error f => Except.error f
          | Except.ok puts => Except.ok (puts ++ [(key3 name rev maniName, mc)])) = _
    rw [upUseGo_pre h name rev mani pre ((s, c) :: post) [] hpre]
    have hgo : upUseGo h name rev mani ((s, c) :: post) ([] ++ filePuts name rev pre)
        = .error ⟨.notFound s, filePuts name rev pre⟩ := by
      unfold upUseGo
      rw [if_neg hs, hnone]
      simp
    rw [hgo]
  · intro e he hne
    refine ⟨?_, hnotmem⟩
    unfold uploadUsingManifest
    rw [hmani]
    show (match upUseGo h name rev mani (pre ++ (s, c) :: post) [] with
          | Except.error f => Except.error f
          | Except.ok puts => Except.ok (puts ++ [(key3 name rev maniName, mc)])) = _
    rw [upUseGo_pre h name rev mani pre ((s, c) :: post) [] hpre]
    have hgo : upUseGo h name rev mani ((s, c) :: post) ([] ++ filePuts name rev pre)
        = .error ⟨.mismatch s (digest h c).1 e.size (digest h c).2 e.sha,
            filePuts name rev pre⟩ := by
      unfold upUseGo
      rw [if_neg hs, he]
      simp [hne]
    rw [hgo]

/-- Claim C5, witness: against a concrete one-entry manifest, uploading
a tree with an unknown subpath fails `FileNotFoundError` with no object
put, and uploading the manifest's file with changed content fails
`ValueError` naming both digests, with no object put. -/
theorem C5_witness :
    uploadUsingManifest hW ("n").data ("r").data [(("a").data, ("x").data)]
        (manifestContent hW [(("sub/a.txt").data, ("hi").data)])
      = .error ⟨.notFound ("a").data, []⟩
    ∧ uploadUsingManifest hW ("n").data ("r").data
        [(("sub/a.txt").data, ("zzz").data)]
        (manifestContent hW [(("sub/a.txt").data, ("hi").data)])
      = .error ⟨.mismatch ("sub/a.txt").data 3 2 ("d3").data ("d2").data, []⟩ := by
  constructor
  · exact ((C5_verify_upload_failfast hW ("n").data ("r").data
      (manifestContent hW [(("sub/a.txt").data, ("hi").data)])
      [(("sub/a.txt").data, ⟨2, ("d2").data⟩)] [] [] ("a").data ("x").data
      (by rfl) (by simp) (by decide) (by simp)).1 (by rfl)).1
  · exact ((C5_verify_upload_failfast hW ("n").data ("r").data
      (manifestContent hW [(("sub/a.txt").data, ("hi").data)])
      [(("sub/a.txt").data, ⟨2, ("d2").data⟩)] [] [] ("sub/a.txt").data ("zzz").data
      (by rfl) (by simp) (by decide) (by simp)).2 ⟨2, ("d2").data⟩ (by rfl)
      (by decide)).1

/-- Claim C8, witness: a three-byte object is fetched in one read whose
range is the whole object, and the written bytes equal the object. -/
theorem C8_witness :
    (fgetReads (("abc").data).length).length
        = ((("abc").data).length + 1024 ^ 2 - 1) / 1024 ^ 2
    ∧ (fgetReads (("abc").data).length).getLast?
        = some (1024 ^ 2 * ((("abc").data).length / 1024 ^ 2),
                (("abc").data).length % 1024 ^ 2)
    ∧ fgetData ("abc").data = ("abc").data := by
  have h := C8_fget_chunking ("abc").data
  exact ⟨h.1, (h.2.2.2.1 (by decide)).2, h.2.2.2.2.2.2.2⟩

end DJArchive
